import Mathlib

/-!
Verification of the tabu-search repository (single-objective TSP driver, segment-swap
neighborhood, multi-objective driver, tabu memory, D2D problem import and initial
solution construction) against its natural-language specification.

Python floats are modelled by an arbitrary linear ordered commutative ring `R`
(the claims under study are exact arithmetic / structural claims, not rounding
claims); concrete checks instantiate `R := ℤ`.  Python lists indexed by city are modelled
by functions `Fin n → Fin n`; mutation of a list entry is `Function.update`.
-/

namespace TSP

variable {R : Type} [LinearOrderedCommRing R]

/-- Doubly-linked encoding of a cyclic tour, as manipulated by `Swap.swap`
(`src/tsp/neighborhoods/swap.py`): `before v` / `after v` are the predecessor and
successor of city `v` on the tour, and `cost` is the stored (incrementally
maintained) tour cost. -/
structure PathSolution (R : Type) (n : ℕ) where
  before : Fin n → Fin n
  after : Fin n → Fin n
  cost : R
deriving DecidableEq

/-- Full recomputation of the tour cost from a successor linkage `f`:
the sum of `distances[v][f v]` over all cities `v`. -/
def sumEdges (n : ℕ) (d : Fin n → Fin n → R) (f : Fin n → Fin n) : R :=
  ∑ j : Fin n, d j (f j)

/-- Body of `Swap.swap` after the initial role normalization (the Python tuple
rebinding `first_head, first_tail, second_head, second_tail = second_head,
second_tail, first_head, first_tail`): the two-case relinking with incremental
cost update.  The sequential Python list mutations of `after`/`before` become
nested `Function.update`s (the later assignment outermost).  `d` is the
class-level `distances` table. -/
def swapCore (n : ℕ) (d : Fin n → Fin n → R) (solution : PathSolution R n)
    (fh ft sh st : Fin n) : PathSolution R n :=
  let before := solution.before
  let after := solution.after
  if ft = before sh then
    let before_first := before fh
    let after_second := after st
    { before := Function.update (Function.update (Function.update before sh before_first)
        fh st) after_second ft,
      after := Function.update (Function.update (Function.update after before_first sh)
        st fh) ft after_second,
      cost := solution.cost
        + d before_first sh
        + d st fh
        + d ft after_second
        - d before_first fh
        - d ft sh
        - d st after_second }
  else
    let before_first := before fh
    let before_second := before sh
    let after_first := after ft
    let after_second := after st
    { before := Function.update (Function.update (Function.update (Function.update before
        sh before_first) fh before_second) after_first st) after_second ft,
      after := Function.update (Function.update (Function.update (Function.update after
        before_first sh) before_second fh) st after_first) ft after_second,
      cost := solution.cost
        + d before_first sh + d st after_first
        + d before_second fh + d ft after_second
        - d before_first fh - d ft after_first
        - d before_second sh - d st after_second }

/-- `Swap.swap` (src/tsp/neighborhoods/swap.py lines 36-82): if the first segment
immediately follows the second on the tour (`first_head == after[second_tail]`),
exchange the roles of the two segments, then relink via `swapCore`. -/
def swap (n : ℕ) (d : Fin n → Fin n → R) (solution : PathSolution R n)
    (first_head first_tail second_head second_tail : Fin n) : PathSolution R n :=
  if first_head = solution.after second_tail then
    swapCore n d solution second_head second_tail first_head first_tail
  else
    swapCore n d solution first_head first_tail second_head second_tail

/-- Reduce a `ℕ` index modulo `n` into `Fin n` (Python's `% solution.dimension`). -/
def mkIdx (n : ℕ) [NeZero n] (k : ℕ) : Fin n :=
  ⟨k % n, Nat.mod_lt _ (Nat.pos_of_ne_zero (NeZero.ne n))⟩

/-- The move-descriptor enumeration loop of `Swap.find_best_candidate`
(src/tsp/neighborhoods/swap.py lines 91-105): for every `first_head_index` and every
separation `dd`, emit the 4-tuple of cities
`(path[first_head_index], path[first_tail_index], path[second_head_index],
path[second_tail_index])`.  `L1`/`L2` are `_first_length`/`_second_length` (assumed
≥ 1, as produced by the neighborhood constructors); `n + 1 - (L1 + L2)` is Python's
`range(dimension - first_length - second_length + 1)` bound clamped at 0. -/
def enumerateSwaps (n : ℕ) [NeZero n] (L1 L2 : ℕ) (path : Fin n → Fin n) :
    List (Fin n × Fin n × Fin n × Fin n) :=
  (List.range n).flatMap fun first_head_index =>
    (List.range (n + 1 - (L1 + L2))).map fun dd =>
      let first_tail_index := (first_head_index + (L1 - 1)) % n
      let second_head_index := (first_tail_index + dd + 1) % n
      let second_tail_index := (second_head_index + (L2 - 1)) % n
      (path (mkIdx n first_head_index), path (mkIdx n first_tail_index),
        path (mkIdx n second_head_index), path (mkIdx n second_tail_index))

/-- Round-robin sharding of the descriptor list (the `args`/`args_index_iteration`
loop of `find_best_candidate`): descriptor number `k` of the enumeration goes to
shard `k % c`, where `c` is the worker-slot count (`os.cpu_count() or 1`). -/
def roundRobin (c : ℕ) {α : Type} (xs : List α) : List (List α) :=
  (List.range c).map fun j => (xs.enum.filter fun p => p.1 % c == j).map Prod.snd

/-- Loop body of `Swap.static_find_best_candidate`: evaluate one descriptor and
keep the minimum-cost swapped solution, ties broken in favour of the earlier
descriptor (`swapped < result` is strict cost comparison, per
`BaseSolution.__lt__`). -/
def evalStep (n : ℕ) (d : Fin n → Fin n → R) (solution : PathSolution R n)
    (acc : Option (PathSolution R n × (Fin n × Fin n × Fin n × Fin n)))
    (swp : Fin n × Fin n × Fin n × Fin n) :
    Option (PathSolution R n × (Fin n × Fin n × Fin n × Fin n)) :=
  let swapped := swap n d solution swp.1 swp.2.1 swp.2.2.1 swp.2.2.2
  match acc with
  | none => some (swapped, swp)
  | some pr => if swapped.cost < pr.1.cost then some (swapped, swp) else acc

/-- `Swap.static_find_best_candidate` (src/tsp/neighborhoods/swap.py lines 122-135):
evaluate every descriptor of one shard in order using `evalStep`. -/
def staticFindBestCandidate (n : ℕ) (d : Fin n → Fin n → R) (solution : PathSolution R n)
    (shard : List (Fin n × Fin n × Fin n × Fin n)) :
    Option (PathSolution R n × (Fin n × Fin n × Fin n × Fin n)) :=
  shard.foldl (evalStep n d solution) none

/-- `Swap.find_best_candidate` (src/tsp/neighborhoods/swap.py lines 84-120):
enumerate all descriptors, shard them round-robin over `c` worker slots, evaluate
each shard with `staticFindBestCandidate`, and reduce the per-shard results keeping
the strictly smaller-cost candidate (earlier shard wins ties).  Returns the chosen
candidate together with the descriptor recorded into the tabu memory (`min_swap`). -/
def reduceStep (n : ℕ)
    (acc : Option (PathSolution R n) × Option (Fin n × Fin n × Fin n × Fin n))
    (r : Option (PathSolution R n × (Fin n × Fin n × Fin n × Fin n))) :
    Option (PathSolution R n) × Option (Fin n × Fin n × Fin n × Fin n) :=
  match r with
  | none => acc
  | some (result_temp, min_swap_temp) =>
    match acc.1 with
    | none => (some result_temp, some min_swap_temp)
    | some result =>
      if result_temp.cost < result.cost then (some result_temp, some min_swap_temp)
      else acc

def findBestCandidate (n : ℕ) [NeZero n] (d : Fin n → Fin n → R)
    (solution : PathSolution R n) (path : Fin n → Fin n) (L1 L2 c : ℕ) :
    Option (PathSolution R n) × Option (Fin n × Fin n × Fin n × Fin n) :=
  let args := roundRobin c (enumerateSwaps n L1 L2 path)
  (args.map (staticFindBestCandidate n d solution)).foldl (reduceStep n) (none, none)

/-- Reference semantics taken from the specification's words: a purely sequential
evaluation of every enumerated move in enumeration order, taking the minimum by
cost with ties broken by enumeration order.  (This is `staticFindBestCandidate`
applied to the whole, unsharded enumeration.) -/
def seqBestCandidate (n : ℕ) [NeZero n] (d : Fin n → Fin n → R)
    (solution : PathSolution R n) (path : Fin n → Fin n) (L1 L2 : ℕ) :
    Option (PathSolution R n × (Fin n × Fin n × Fin n × Fin n)) :=
  staticFindBestCandidate n d solution (enumerateSwaps n L1 L2 path)

theorem sumEdges_update (n : ℕ) (d : Fin n → Fin n → R) (f : Fin n → Fin n) (a b : Fin n) :
    sumEdges n d (Function.update f a b) = sumEdges n d f - d a (f a) + d a b := by
  unfold sumEdges
  have h : ∀ j : Fin n, d j (Function.update f a b j) =
      Function.update (fun j => d j (f j)) a (d a b) j := by
    intro j
    by_cases hj : j = a
    · subst hj; simp
    · simp [Function.update_noteq hj]
  rw [Finset.sum_congr rfl fun j _ => h j]
  rw [Finset.sum_update_of_mem (Finset.mem_univ a)]
  rw [Finset.sum_sdiff_eq_sub (Finset.subset_univ {a}), Finset.sum_singleton]
  ring

/-- Correctness of the boundary-aware 3-edge branch of `swapCore`: when the first
segment is immediately followed by the second and the three relinked cities are
pairwise distinct, the incrementally updated cost equals the full recomputation
from the new successor linkage. -/
theorem swapCore_cost_adjacent (n : ℕ) (d : Fin n → Fin n → R) (sol : PathSolution R n)
    (fh ft sh st : Fin n)
    (hadj : ft = sol.before sh)
    (hbf : sol.after (sol.before fh) = fh)
    (hfts : sol.after ft = sh)
    (h1 : sol.before fh ≠ st) (h2 : sol.before fh ≠ ft) (h3 : st ≠ ft)
    (hcost : sol.cost = sumEdges n d sol.after) :
    (swapCore n d sol fh ft sh st).cost
      = sumEdges n d (swapCore n d sol fh ft sh st).after := by
  simp only [swapCore]
  rw [if_pos hadj]
  simp only
  rw [sumEdges_update, sumEdges_update, sumEdges_update]
  rw [Function.update_noteq (Ne.symm h3), Function.update_noteq (Ne.symm h2),
    Function.update_noteq (Ne.symm h1), hbf, hfts]
  rw [hcost]
  ring

/-- Correctness of the general 4-edge branch of `swapCore`: when the two segments
are not adjacent and the four relinked cities are pairwise distinct, the
incrementally updated cost equals the full recomputation from the new successor
linkage. -/
theorem swapCore_cost_general (n : ℕ) (d : Fin n → Fin n → R) (sol : PathSolution R n)
    (fh ft sh st : Fin n)
    (hnadj : ¬ ft = sol.before sh)
    (habf : sol.after (sol.before fh) = fh)
    (habs : sol.after (sol.before sh) = sh)
    (h12 : sol.before fh ≠ sol.before sh) (h13 : sol.before fh ≠ st)
    (h14 : sol.before fh ≠ ft) (h23 : sol.before sh ≠ st) (h24 : sol.before sh ≠ ft)
    (h34 : st ≠ ft)
    (hcost : sol.cost = sumEdges n d sol.after) :
    (swapCore n d sol fh ft sh st).cost
      = sumEdges n d (swapCore n d sol fh ft sh st).after := by
  simp only [swapCore]
  rw [if_neg hnadj]
  simp only
  rw [sumEdges_update, sumEdges_update, sumEdges_update, sumEdges_update]
  rw [Function.update_noteq (Ne.symm h34), Function.update_noteq (Ne.symm h24),
    Function.update_noteq (Ne.symm h14),
    Function.update_noteq (Ne.symm h23), Function.update_noteq (Ne.symm h13),
    Function.update_noteq (Ne.symm h12), habf, habs]
  rw [hcost]
  ring

theorem cast_ne_of_between (n a b : ℕ) [NeZero n] (hab : a < b) (hbn : b - a < n) :
    (a : ZMod n) ≠ (b : ZMod n) := by
  intro h
  have h0 : ((b - a : ℕ) : ZMod n) = 0 := by
    rw [Nat.cast_sub hab.le, ← h, sub_self]
  rw [ZMod.natCast_zmod_eq_zero_iff_dvd] at h0
  have := Nat.le_of_dvd (Nat.sub_pos_of_lt hab) h0
  omega

/-- Two cities at distinct cyclic offsets `a < b` (with `b - a < n`) from a common
origin on an `n`-city tour are distinct. -/
theorem tourPoint_ne (n : ℕ) [NeZero n] (p : ZMod n → Fin n)
    (hp : Function.Injective p) (J : ZMod n) (a b : ℕ) (hab : a < b) (hbn : b - a < n) :
    p (J + (a : ZMod n)) ≠ p (J + (b : ZMod n)) := by
  intro h
  exact cast_ne_of_between n a b hab hbn (add_left_cancel (hp h))

/-- C1 (amended): on a consistent tour solution (doubly-linked encoding of a
single cyclic permutation, stored cost equal to the full recomputation), every
move descriptor enumerated by the Swap neighborhood with segment lengths
`L1, L2 ≥ 1` that do not jointly cover the whole tour (`L1 + L2 < n`) produces,
through `Swap.swap`'s incremental 3-edge or 4-edge update, exactly the cost that
full recomputation from the resulting successor linkage gives. -/
theorem C1_swap_incremental_cost_amended (n L1 L2 : ℕ) [NeZero n]
    (d : Fin n → Fin n → R) (p : ZMod n → Fin n) (hp : Function.Bijective p)
    (sol : PathSolution R n)
    (hafter : ∀ k : ZMod n, sol.after (p k) = p (k + 1))
    (hbefore : ∀ k : ZMod n, sol.before (p k) = p (k - 1))
    (hcost : sol.cost = sumEdges n d sol.after)
    (hL1 : 1 ≤ L1) (hL2 : 1 ≤ L2) (hLn : L1 + L2 < n)
    (fh ft sh st : Fin n)
    (hmem : (fh, ft, sh, st) ∈ enumerateSwaps n L1 L2 (fun j => p ((j.val : ZMod n)))) :
    (swap n d sol fh ft sh st).cost = sumEdges n d (swap n d sol fh ft sh st).after := by
  have hpinj := hp.injective
  simp only [enumerateSwaps, List.mem_flatMap, List.mem_map, List.mem_range] at hmem
  obtain ⟨i, hi, dd, hddlt, heq⟩ := hmem
  simp only [mkIdx, Prod.mk.injEq] at heq
  obtain ⟨hfh, hft, hsh, hst⟩ := heq
  have hddn : dd + L1 + L2 ≤ n := by omega
  have efh : fh = p ((i : ZMod n)) := by
    rw [← hfh]; congr 1; push_cast [ZMod.natCast_mod]; ring
  have eft : ft = p ((i : ZMod n) + L1 - 1) := by
    rw [← hft]; congr 1
    push_cast [ZMod.natCast_mod, Nat.cast_sub hL1]; ring
  have esh : sh = p ((i : ZMod n) + L1 + dd) := by
    rw [← hsh]; congr 1
    push_cast [ZMod.natCast_mod, Nat.cast_sub hL1]; ring
  have est : st = p ((i : ZMod n) + L1 + dd + L2 - 1) := by
    rw [← hst]; congr 1
    push_cast [ZMod.natCast_mod, Nat.cast_sub hL1, Nat.cast_sub hL2]; ring
  subst efh eft esh est
  have pne' : ∀ (a b : ℕ), a < b → b - a < n → ∀ X Y : ZMod n,
      X = ((i : ZMod n) - 1) + a → Y = ((i : ZMod n) - 1) + b → p X ≠ p Y := by
    intro a b hab hbn X Y hX hY
    rw [hX, hY]; exact tourPoint_ne n p hpinj _ a b hab hbn
  by_cases hdd0 : dd = 0
  · -- adjacent case: the second segment directly follows the first
    have hz0 : ((dd : ℕ) : ZMod n) = 0 := by rw [hdd0]; simp
    have hrole : ¬ p ((i : ZMod n))
        = sol.after (p ((i : ZMod n) + L1 + dd + L2 - 1)) := by
      rw [hafter]
      exact pne' 1 (L1 + dd + L2 + 1) (by omega) (by omega) _ _
        (by push_cast; ring) (by push_cast; ring)
    simp only [swap]
    rw [if_neg hrole]
    refine swapCore_cost_adjacent n d sol _ _ _ _ ?_ ?_ ?_ ?_ ?_ ?_ hcost
    · rw [hbefore]; congr 1; linear_combination -hz0
    · rw [hbefore, hafter]; congr 1; ring
    · rw [hafter]; congr 1; linear_combination -hz0
    · rw [hbefore]
      exact pne' 0 (L1 + dd + L2) (by omega) (by omega) _ _
        (by push_cast; ring) (by push_cast; ring)
    · rw [hbefore]
      exact pne' 0 L1 (by omega) (by omega) _ _ (by push_cast; ring)
        (by push_cast; ring)
    · exact (pne' L1 (L1 + dd + L2) (by omega) (by omega) _ _ (by push_cast; ring)
        (by push_cast; ring)).symm
  · by_cases hddn2 : L1 + dd + L2 = n
    · -- wrap-around adjacent case: the roles of the two segments are exchanged
      have hz : ((L1 : ℕ) : ZMod n) + ((dd : ℕ) : ZMod n) + ((L2 : ℕ) : ZMod n) = 0 := by
        have hcc : ((L1 + dd + L2 : ℕ) : ZMod n) = 0 := by
          rw [hddn2]; exact ZMod.natCast_self n
        push_cast at hcc; linear_combination hcc
      have hrole : p ((i : ZMod n))
          = sol.after (p ((i : ZMod n) + L1 + dd + L2 - 1)) := by
        rw [hafter]; congr 1; linear_combination -hz
      simp only [swap]
      rw [if_pos hrole]
      refine swapCore_cost_adjacent n d sol _ _ _ _ ?_ ?_ ?_ ?_ ?_ ?_ hcost
      · rw [hbefore]; congr 1; linear_combination hz
      · rw [hbefore, hafter]; congr 1; ring
      · rw [hafter]; congr 1; linear_combination hz
      · rw [hbefore]
        exact (pne' L1 (L1 + dd) (by omega) (by omega) _ _ (by push_cast; ring)
          (by push_cast; ring)).symm
      · rw [hbefore]
        exact (pne' 0 (L1 + dd) (by omega) (by omega) _ _
          (by push_cast; linear_combination hz) (by push_cast; ring)).symm
      · exact (pne' 0 L1 (by omega) (by omega) _ _
          (by push_cast; linear_combination hz) (by push_cast; ring)).symm
    · -- separated case: general 4-edge relinking
      have hrole : ¬ p ((i : ZMod n))
          = sol.after (p ((i : ZMod n) + L1 + dd + L2 - 1)) := by
        rw [hafter]
        exact pne' 1 (L1 + dd + L2 + 1) (by omega) (by omega) _ _
          (by push_cast; ring) (by push_cast; ring)
      have hnadj : ¬ p ((i : ZMod n) + L1 - 1)
          = sol.before (p ((i : ZMod n) + L1 + dd)) := by
        rw [hbefore]
        exact pne' L1 (L1 + dd) (by omega) (by omega) _ _ (by push_cast; ring)
          (by push_cast; ring)
      simp only [swap]
      rw [if_neg hrole]
      refine swapCore_cost_general n d sol _ _ _ _ hnadj ?_ ?_ ?_ ?_ ?_ ?_ ?_ ?_ hcost
      · rw [hbefore, hafter]; congr 1; ring
      · rw [hbefore, hafter]; congr 1; ring
      · rw [hbefore, hbefore]
        exact pne' 0 (L1 + dd) (by omega) (by omega) _ _ (by push_cast; ring)
          (by push_cast; ring)
      · rw [hbefore]
        exact pne' 0 (L1 + dd + L2) (by omega) (by omega) _ _ (by push_cast; ring)
          (by push_cast; ring)
      · rw [hbefore]
        exact pne' 0 L1 (by omega) (by omega) _ _ (by push_cast; ring)
          (by push_cast; ring)
      · rw [hbefore]
        exact pne' (L1 + dd) (L1 + dd + L2) (by omega) (by omega) _ _
          (by push_cast; ring) (by push_cast; ring)
      · rw [hbefore]
        exact (pne' L1 (L1 + dd) (by omega) (by omega) _ _ (by push_cast; ring)
          (by push_cast; ring)).symm
      · exact (pne' L1 (L1 + dd + L2) (by omega) (by omega) _ _ (by push_cast; ring)
          (by push_cast; ring)).symm

/-- Running minimum on optional costs: the cost view of one `evalStep`. -/
def minQ : Option R → R → Option R
  | none, c => some c
  | some m, c => some (min m c)

/-- Merge an optional running minimum with an optional shard minimum:
the cost view of one `reduceStep`. -/
def optMin : Option R → Option R → Option R
  | a, none => a
  | a, some c => minQ a c

/-- Cost of the per-result candidate, if any. -/
def costView (n : ℕ) :
    Option (PathSolution R n × (Fin n × Fin n × Fin n × Fin n)) → Option R :=
  Option.map fun pr => pr.1.cost

/-- Cost of the solution produced by one descriptor. -/
def swapCost (n : ℕ) (d : Fin n → Fin n → R) (solution : PathSolution R n)
    (swp : Fin n × Fin n × Fin n × Fin n) : R :=
  (swap n d solution swp.1 swp.2.1 swp.2.2.1 swp.2.2.2).cost

theorem evalStep_costView (n : ℕ) (d : Fin n → Fin n → R) (solution : PathSolution R n)
    (acc : Option (PathSolution R n × (Fin n × Fin n × Fin n × Fin n)))
    (swp : Fin n × Fin n × Fin n × Fin n) :
    costView n (evalStep n d solution acc swp)
      = minQ (costView n acc) (swapCost n d solution swp) := by
  cases acc with
  | none => rfl
  | some pr =>
    by_cases h : (swap n d solution swp.1 swp.2.1 swp.2.2.1 swp.2.2.2).cost < pr.1.cost
    · simp [evalStep, costView, minQ, swapCost, h, min_eq_right h.le]
    · simp [evalStep, costView, minQ, swapCost, h, min_eq_left (le_of_not_lt h)]

theorem staticFold_costView (n : ℕ) (d : Fin n → Fin n → R) (solution : PathSolution R n)
    (shard : List (Fin n × Fin n × Fin n × Fin n)) :
    ∀ acc, costView n (shard.foldl (evalStep n d solution) acc)
      = (shard.map (swapCost n d solution)).foldl minQ (costView n acc) := by
  induction shard with
  | nil => intro acc; rfl
  | cons swp rest ih =>
    intro acc
    simp only [List.foldl_cons, List.map_cons]
    rw [ih, evalStep_costView]

theorem staticFindBestCandidate_costView (n : ℕ) (d : Fin n → Fin n → R)
    (solution : PathSolution R n) (shard : List (Fin n × Fin n × Fin n × Fin n)) :
    costView n (staticFindBestCandidate n d solution shard)
      = (shard.map (swapCost n d solution)).foldl minQ none :=
  staticFold_costView n d solution shard none

theorem reduceStep_costView (n : ℕ)
    (acc : Option (PathSolution R n) × Option (Fin n × Fin n × Fin n × Fin n))
    (r : Option (PathSolution R n × (Fin n × Fin n × Fin n × Fin n))) :
    (reduceStep n acc r).1.map PathSolution.cost
      = optMin (acc.1.map PathSolution.cost) (costView n r) := by
  cases r with
  | none => rfl
  | some pr =>
    obtain ⟨rt, mt⟩ := pr
    cases hacc : acc.1 with
    | none => simp [reduceStep, optMin, minQ, costView, hacc]
    | some result =>
      by_cases h : rt.cost < result.cost
      · simp [reduceStep, optMin, minQ, costView, hacc, h, min_eq_right h.le]
      · simp [reduceStep, optMin, minQ, costView, hacc, h, min_eq_left (le_of_not_lt h)]

theorem reduceFold_costView (n : ℕ)
    (rs : List (Option (PathSolution R n × (Fin n × Fin n × Fin n × Fin n)))) :
    ∀ acc, ((rs.foldl (reduceStep n) acc).1.map PathSolution.cost)
      = rs.foldl (fun A r => optMin A (costView n r)) (acc.1.map PathSolution.cost) := by
  induction rs with
  | nil => intro acc; rfl
  | cons r rest ih =>
    intro acc
    simp only [List.foldl_cons]
    rw [ih, reduceStep_costView]

theorem optMin_foldl_minQ (cs : List R) :
    ∀ A B : Option R, optMin A (cs.foldl minQ B) = cs.foldl minQ (optMin A B) := by
  induction cs with
  | nil => intro A B; rfl
  | cons c cs ih =>
    intro A B
    simp only [List.foldl_cons]
    rw [ih]
    congr 1
    cases A <;> cases B <;> simp [optMin, minQ, min_assoc]

instance : RightCommutative (minQ : Option R → R → Option R) :=
  ⟨by
    intro b a1 a2
    cases b <;> simp [minQ, min_assoc, min_comm, min_left_comm]⟩

theorem flatten_map_append_perm {α : Type} (js : List ℕ) (g h : ℕ → List α) :
    ((js.map fun j => g j ++ h j).flatten).Perm
      ((js.map g).flatten ++ (js.map h).flatten) := by
  induction js with
  | nil => simp
  | cons j js ih =>
    simp only [List.map_cons, List.flatten_cons, List.append_assoc]
    refine List.Perm.append_left (g j) ?_
    refine (List.Perm.append_left (h j) ih).trans ?_
    exact List.perm_append_comm_assoc _ _ _

theorem flatten_map_ite_of_not_mem {α : Type} (x : α) (j0 : ℕ) :
    ∀ js : List ℕ, j0 ∉ js →
      ((js.map fun j => if j0 = j then [x] else []).flatten) = [] := by
  intro js
  induction js with
  | nil => intro _; rfl
  | cons j js ih =>
    intro hj
    simp only [List.map_cons, List.flatten_cons]
    rw [if_neg (fun h : j0 = j => hj (by rw [h]; exact List.mem_cons_self j js)),
      ih (fun h => hj (List.mem_cons_of_mem j h))]
    rfl

theorem flatten_map_ite_single {α : Type} (x : α) (j0 : ℕ) :
    ∀ js : List ℕ, js.Nodup → j0 ∈ js →
      ((js.map fun j => if j0 = j then [x] else []).flatten) = [x] := by
  intro js
  induction js with
  | nil => intro _ h; cases h
  | cons j js ih =>
    intro hnd hj
    simp only [List.map_cons, List.flatten_cons]
    by_cases hj0 : j0 = j
    · rw [if_pos hj0]
      rw [flatten_map_ite_of_not_mem x j0 js
        (fun hmem => (List.nodup_cons.mp hnd).1 (hj0 ▸ hmem))]
      rfl
    · rw [if_neg hj0, List.nil_append]
      exact ih (List.nodup_cons.mp hnd).2
        ((List.mem_cons.mp hj).resolve_left hj0)

theorem roundRobin_flatten_perm {α : Type} (c : ℕ) (hc : 1 ≤ c) (xs : List α) :
    ((roundRobin c xs).flatten).Perm xs := by
  induction xs using List.reverseRecOn with
  | nil => simp [roundRobin]
  | append_singleton xs x ih =>
    have hshard : ∀ j ∈ List.range c,
        (((xs ++ [x]).enum.filter fun p => p.1 % c == j).map Prod.snd)
          = ((xs.enum.filter fun p => p.1 % c == j).map Prod.snd)
            ++ (if xs.length % c = j then [x] else []) := by
      intro j _
      rw [List.enum_append, List.filter_append, List.map_append]
      congr 1
      by_cases h : xs.length % c = j
      · simp [List.filter_cons, beq_iff_eq, h]
      · simp [List.filter_cons, beq_iff_eq, h]
    have h1 : (roundRobin c (xs ++ [x])).flatten
        = ((List.range c).map fun j =>
            ((xs.enum.filter fun p => p.1 % c == j).map Prod.snd)
              ++ (if xs.length % c = j then [x] else [])).flatten := by
      unfold roundRobin
      rw [List.map_congr_left hshard]
    rw [h1]
    refine (flatten_map_append_perm _ _ _).trans ?_
    rw [flatten_map_ite_single x (xs.length % c) (List.range c)
      (List.nodup_range c) (List.mem_range.mpr (Nat.mod_lt _ hc))]
    exact ih.append_right [x]

/-- C2 (amended): the sharded round-robin evaluation and min-by-cost reduction of
`find_best_candidate` return a candidate of exactly the cost that a sequential
evaluation of every enumerated move (minimum by cost, ties broken by enumeration
order) returns, for every positive worker-slot count — the reduction is
shard-count independent at the level of cost.  (On cost ties the identity of the
returned encoding can depend on the sharding; see the counterexample.) -/
theorem C2_findBestCandidate_cost_eq_sequential (n L1 L2 c : ℕ) [NeZero n]
    (d : Fin n → Fin n → R) (solution : PathSolution R n) (path : Fin n → Fin n)
    (hc : 1 ≤ c) :
    ((findBestCandidate n d solution path L1 L2 c).1).map PathSolution.cost
      = costView n (seqBestCandidate n d solution path L1 L2) := by
  rw [seqBestCandidate, staticFindBestCandidate_costView]
  unfold findBestCandidate
  rw [reduceFold_costView]
  rw [List.foldl_map]
  have hfun : (fun (A : Option R) sh =>
        optMin A (costView n (staticFindBestCandidate n d solution sh)))
      = fun (A : Option R) sh => (sh.map (swapCost n d solution)).foldl minQ A := by
    funext A sh
    rw [staticFindBestCandidate_costView, optMin_foldl_minQ]
    rfl
  have hflat : ∀ (S : List (List (Fin n × Fin n × Fin n × Fin n))) (A : Option R),
      S.foldl (fun (A : Option R) sh => (sh.map (swapCost n d solution)).foldl minQ A) A
        = ((S.flatten).map (swapCost n d solution)).foldl minQ A := by
    intro S A
    rw [List.foldl_map, List.foldl_flatten]
    congr 1
    funext B sh
    rw [List.foldl_map]
  have hperm := (roundRobin_flatten_perm c hc (enumerateSwaps n L1 L2 path)).map
    (swapCost n d solution)
  calc ((roundRobin c (enumerateSwaps n L1 L2 path)).foldl
          (fun A sh => optMin A (costView n (staticFindBestCandidate n d solution sh)))
          (((none, none) : Option (PathSolution R n)
              × Option (Fin n × Fin n × Fin n × Fin n)).1.map PathSolution.cost))
      = ((roundRobin c (enumerateSwaps n L1 L2 path)).flatten.map
          (swapCost n d solution)).foldl minQ none := by
        rw [hfun, hflat]
        rfl
    _ = ((enumerateSwaps n L1 L2 path).map (swapCost n d solution)).foldl minQ none :=
        hperm.foldl_eq none

/-- C8 (first half): if the move enumeration produces no descriptor at all, every
shard is empty, every per-shard evaluation returns the `None` pair, and the
reduction of `find_best_candidate` returns the sentinel `None` (no exception is
involved: the embedding is a total function). -/
theorem findBestCandidate_none_of_no_moves (n L1 L2 c : ℕ) [NeZero n]
    (d : Fin n → Fin n → R) (solution : PathSolution R n) (path : Fin n → Fin n)
    (h : enumerateSwaps n L1 L2 path = []) :
    findBestCandidate n d solution path L1 L2 c = (none, none) := by
  simp only [findBestCandidate]
  rw [h]
  have h1 : roundRobin c ([] : List (Fin n × Fin n × Fin n × Fin n))
      = (List.range c).map fun _ => [] := by
    unfold roundRobin; simp
  rw [h1, List.map_map]
  have h2 : ∀ js : List ℕ,
      ((js.map ((staticFindBestCandidate n d solution) ∘ fun _ => [])).foldl
        (reduceStep n) (none, none)) = (none, none) := by
    intro js
    induction js with
    | nil => rfl
    | cons j js ih => simpa [staticFindBestCandidate, reduceStep] using ih
  exact h2 (List.range c)

/-- The enumeration is empty whenever the two segment lengths exceed the tour
dimension (Python's `range(dimension - first_length - second_length + 1)` over a
non-positive bound). -/
theorem enumerateSwaps_eq_nil (n L1 L2 : ℕ) [NeZero n] (path : Fin n → Fin n)
    (h : n + 1 ≤ L1 + L2) : enumerateSwaps n L1 L2 path = [] := by
  unfold enumerateSwaps
  rw [Nat.sub_eq_zero_of_le h]
  simp

/-- Distance matrix for the sharding-tie counterexample. -/
def cex2D : Fin 4 → Fin 4 → ℤ :=
  ![![0, 3, 6, 0], ![3, 0, 1, 3], ![6, 0, 0, 4], ![2, 0, 4, 0]]

/-- The canonical tour 0 → 1 → 2 → 3 → 0 over `cex2D`, with consistently stored
cost. -/
def cex2Sol : PathSolution ℤ 4 :=
  { before := fun v => v - 1
    after := fun v => v + 1
    cost := sumEdges 4 cex2D (fun v => v + 1) }

/-- C2 (counterexample): with two worker slots, the candidate returned by the
sharded reduction differs (as a solution: different relinked encoding) from the
candidate that the sequential evaluation with ties-broken-by-enumeration-order
returns, even though the input solution is fully consistent — the global minimum
cost is attained first at enumeration position 1 (shard 1) and again at position
2 (shard 0), and the reduction prefers the earlier shard, not the earlier
enumerated move. -/
theorem C2_counterexample :
    cex2Sol.cost = sumEdges 4 cex2D cex2Sol.after
    ∧ (∀ v : Fin 4, cex2Sol.after (cex2Sol.before v) = v
        ∧ cex2Sol.before (cex2Sol.after v) = v)
    ∧ (findBestCandidate 4 cex2D cex2Sol (fun j => j) 1 1 2).1
        ≠ (seqBestCandidate 4 cex2D cex2Sol (fun j => j) 1 1).map (fun pr => pr.1) := by
  refine ⟨rfl, by decide, by decide⟩

/-- Distance matrix for the degenerate double-adjacency counterexample. -/
def cex1D : Fin 4 → Fin 4 → ℤ :=
  ![![0, 0, 0, 0], ![1, 0, 2, 0], ![0, 0, 0, 0], ![0, 0, 0, 0]]

/-- The canonical tour 0 → 1 → 2 → 3 → 0 over `cex1D`, with consistently stored
cost. -/
def cex1Sol : PathSolution ℤ 4 :=
  { before := fun v => v - 1
    after := fun v => v + 1
    cost := sumEdges 4 cex1D (fun v => v + 1) }

/-- C1 (counterexample): with segment lengths 2 and 2 on a 4-city tour, the
descriptor `(0, 1, 2, 3)` is enumerated (the two segments are adjacent on both
sides, jointly covering the whole cycle), and on a fully consistent solution
`Swap.swap`'s incrementally computed cost differs from the full recomputation
from the linkage it produces (which is in fact no longer a permutation). -/
theorem C1_counterexample :
    ((0, 1, 2, 3) : Fin 4 × Fin 4 × Fin 4 × Fin 4)
        ∈ enumerateSwaps 4 2 2 (fun j => j)
    ∧ cex1Sol.cost = sumEdges 4 cex1D cex1Sol.after
    ∧ (∀ v : Fin 4, cex1Sol.after (cex1Sol.before v) = v
        ∧ cex1Sol.before (cex1Sol.after v) = v)
    ∧ (swap 4 cex1D cex1Sol 0 1 2 3).cost
        ≠ sumEdges 4 cex1D (swap 4 cex1D cex1Sol 0 1 2 3).after := by
  refine ⟨by decide, by decide, by decide, by decide⟩

/-- The canonical identification of `ZMod n` with tour positions. -/
def castFin (n : ℕ) [NeZero n] : ZMod n → Fin n :=
  fun k => ⟨k.val, ZMod.val_lt k⟩

/-- Concrete distance matrix for witnessing the amended C1 statement. -/
def witD : Fin 5 → Fin 5 → ℤ :=
  fun a b => (a.val : ℤ) * 5 + (b.val : ℤ)

/-- The canonical tour 0 → 1 → 2 → 3 → 4 → 0 over `witD`. -/
def witSol : PathSolution ℤ 5 :=
  { before := fun v => v - 1
    after := fun v => v + 1
    cost := sumEdges 5 witD (fun v => v + 1) }

theorem C1_amended_witness :
    (swap 5 witD witSol 0 0 1 1).cost
      = sumEdges 5 witD (swap 5 witD witSol 0 0 1 1).after :=
  C1_swap_incremental_cost_amended 5 1 1 witD (castFin 5) (by decide) witSol
    (by decide) (by decide) (by decide) (by decide) (by decide) (by decide)
    0 0 1 1 (by decide)

theorem C2_amended_witness :
    ((findBestCandidate 4 cex2D cex2Sol (fun j => j) 1 1 2).1).map PathSolution.cost
      = costView 4 (seqBestCandidate 4 cex2D cex2Sol (fun j => j) 1 1) :=
  C2_findBestCandidate_cost_eq_sequential 4 1 1 2 cex2D cex2Sol (fun j => j)
    (by decide)

end TSP

namespace SO

/-- Python's `min(result, current)` under `BaseSolution.__lt__` (cost
comparison): `current` is taken only when strictly smaller, ties keep `result`
(the first argument of `min`). -/
def pyMin {S R : Type} [LinearOrder R] (cost : S → R) (result current : S) : S :=
  if cost current < cost result then current else result

/-- The loop state of `BaseSolution.tabu_search` (src/tsp/abc.py lines 61-86):
the walk position `current`, the best-ever solution `result`, and the index of
the last improving iteration. -/
structure DriverState (S : Type) where
  current : S
  result : S
  last_improved : ℕ
deriving DecidableEq

/-- One iteration of the `BaseSolution.tabu_search` loop body (src/tsp/abc.py
lines 70-84).  `bestCandidate iteration current` abstracts
`neighborhoods[next(...)].find_best_candidate(pool=pool)` (neighborhood cycling,
pool and tabu state included); `none` means the `break`.  `shuffle iteration s`
abstracts `s.shuffle()` at that iteration. -/
def tabuStep {S R : Type} [LinearOrder R] (cost : S → R) (shuffle : ℕ → S → S)
    (bestCandidate : ℕ → S → Option S) (shuffle_after : ℕ) (iteration : ℕ)
    (st : DriverState S) : Option (DriverState S) :=
  match bestCandidate iteration st.current with
  | none => none
  | some best_candidate =>
    let current := if cost best_candidate < cost st.current then best_candidate
      else st.current
    let last_improved := if cost best_candidate < cost st.current then iteration
      else st.last_improved
    let result := pyMin cost st.result current
    let current2 := if shuffle_after ≤ iteration - last_improved
      then shuffle iteration current else current
    some ⟨current2, result, last_improved⟩

/-- The `for iteration in iterations` loop: perform up to `fuel` iterations
starting at index `iteration`, stopping early when a neighborhood returns no
candidate. -/
def run {S R : Type} [LinearOrder R] (cost : S → R) (shuffle : ℕ → S → S)
    (bestCandidate : ℕ → S → Option S) (shuffle_after : ℕ) :
    ℕ → ℕ → DriverState S → DriverState S
  | 0, _, st => st
  | fuel + 1, iteration, st =>
    match tabuStep cost shuffle bestCandidate shuffle_after iteration st with
    | none => st
    | some st2 => run cost shuffle bestCandidate shuffle_after fuel (iteration + 1) st2

/-- `BaseSolution.tabu_search` (src/tsp/abc.py lines 61-86):
`result = current = initial()`, run the loop, return
`result.post_optimization()`. -/
def tabuSearch {S R : Type} [LinearOrder R] (cost : S → R) (shuffle : ℕ → S → S)
    (bestCandidate : ℕ → S → Option S) (post : S → S)
    (iterations_count shuffle_after : ℕ) (init : S) : S :=
  post ((run cost shuffle bestCandidate shuffle_after iterations_count 0
    ⟨init, init, 0⟩).result)

/-- Specification-side trace: the value `current` holds at the
`result = min(result, current)` step of each executed iteration. -/
def updateValues {S R : Type} [LinearOrder R] (cost : S → R) (shuffle : ℕ → S → S)
    (bestCandidate : ℕ → S → Option S) (shuffle_after : ℕ) :
    ℕ → ℕ → DriverState S → List S
  | 0, _, _ => []
  | fuel + 1, iteration, st =>
    match tabuStep cost shuffle bestCandidate shuffle_after iteration st with
    | none => []
    | some st2 =>
      (if cost ((bestCandidate iteration st.current).getD st.current) < cost st.current
        then (bestCandidate iteration st.current).getD st.current else st.current)
        :: updateValues cost shuffle bestCandidate shuffle_after fuel (iteration + 1) st2

theorem run_result_eq_foldl {S R : Type} [LinearOrder R] (cost : S → R)
    (shuffle : ℕ → S → S) (bc : ℕ → S → Option S) (sa : ℕ) :
    ∀ (fuel iteration : ℕ) (st : DriverState S),
      (run cost shuffle bc sa fuel iteration st).result
        = (updateValues cost shuffle bc sa fuel iteration st).foldl (pyMin cost)
            st.result := by
  intro fuel
  induction fuel with
  | zero => intro it st; rfl
  | succ fuel ih =>
    intro it st
    cases h : bc it st.current with
    | none => simp [run, updateValues, tabuStep, h]
    | some best =>
      simp only [run, updateValues, tabuStep, h, Option.getD_some, List.foldl_cons]
      rw [ih]

theorem foldl_pyMin_mem {S R : Type} [LinearOrder R] (cost : S → R) :
    ∀ (vs : List S) (r : S), vs.foldl (pyMin cost) r ∈ r :: vs := by
  intro vs
  induction vs with
  | nil => intro r; simp
  | cons v vs ih =>
    intro r
    simp only [List.foldl_cons]
    have hpm : pyMin cost r v = r ∨ pyMin cost r v = v := by
      unfold pyMin; split_ifs
      · exact Or.inr rfl
      · exact Or.inl rfl
    rcases List.mem_cons.mp (ih (pyMin cost r v)) with h | h
    · rw [h]
      rcases hpm with h2 | h2 <;> rw [h2] <;> simp
    · exact List.mem_cons_of_mem _ (List.mem_cons_of_mem _ h)

theorem pyMin_le_left {S R : Type} [LinearOrder R] (cost : S → R) (r v : S) :
    cost (pyMin cost r v) ≤ cost r := by
  unfold pyMin; split_ifs with hc
  · exact le_of_lt hc
  · exact le_refl _

theorem pyMin_le_right {S R : Type} [LinearOrder R] (cost : S → R) (r v : S) :
    cost (pyMin cost r v) ≤ cost v := by
  unfold pyMin; split_ifs with hc
  · exact le_refl _
  · exact le_of_not_lt hc

theorem foldl_pyMin_le {S R : Type} [LinearOrder R] (cost : S → R) :
    ∀ (vs : List S) (r x : S), x ∈ r :: vs →
      cost (vs.foldl (pyMin cost) r) ≤ cost x := by
  intro vs
  induction vs with
  | nil =>
    intro r x hx
    rw [List.mem_singleton.mp hx]
    exact le_refl _
  | cons v vs ih =>
    intro r x hx
    simp only [List.foldl_cons]
    rcases List.mem_cons.mp hx with h | h
    · rw [h]
      exact le_trans (ih _ _ (List.mem_cons_self _ _)) (pyMin_le_left cost r v)
    · rcases List.mem_cons.mp h with h2 | h2
      · rw [h2]
        exact le_trans (ih _ _ (List.mem_cons_self _ _)) (pyMin_le_right cost r v)
      · exact ih (pyMin cost r v) x (List.mem_cons_of_mem _ h2)

/-- C4 (amended): the driver returns `post_optimization` of the fold of Python's
`min` over the initial solution and the values `current` holds at each
iteration's `result = min(result, current)` step; that fold is a genuine minimum
by cost over those values (membership and lower bound); and the shuffle step has
no influence on the `result` component of an iteration.  (A just-shuffled
`current` at the end of a shuffle iteration is *not* covered: `shuffle` may
produce a cost below `result` — see the counterexample.) -/
theorem C4_driver_best_ever_amended {S R : Type} [LinearOrder R] (cost : S → R)
    (shuffle : ℕ → S → S) (bestCandidate : ℕ → S → Option S) (post : S → S)
    (iterations_count shuffle_after : ℕ) (init : S) :
    (tabuSearch cost shuffle bestCandidate post iterations_count shuffle_after init
        = post ((updateValues cost shuffle bestCandidate shuffle_after
            iterations_count 0 ⟨init, init, 0⟩).foldl (pyMin cost) init))
    ∧ ((updateValues cost shuffle bestCandidate shuffle_after iterations_count 0
          ⟨init, init, 0⟩).foldl (pyMin cost) init
        ∈ init :: updateValues cost shuffle bestCandidate shuffle_after
            iterations_count 0 ⟨init, init, 0⟩)
    ∧ (∀ x ∈ init :: updateValues cost shuffle bestCandidate shuffle_after
          iterations_count 0 ⟨init, init, 0⟩,
        cost ((updateValues cost shuffle bestCandidate shuffle_after
          iterations_count 0 ⟨init, init, 0⟩).foldl (pyMin cost) init) ≤ cost x)
    ∧ (∀ (shuffle2 : ℕ → S → S) (iteration : ℕ) (st : DriverState S),
        (tabuStep cost shuffle bestCandidate shuffle_after iteration st).map
            DriverState.result
          = (tabuStep cost shuffle2 bestCandidate shuffle_after iteration st).map
              DriverState.result) := by
  refine ⟨?_, foldl_pyMin_mem cost _ init, fun x hx => foldl_pyMin_le cost _ init x hx, ?_⟩
  · unfold tabuSearch
    rw [run_result_eq_foldl]
  · intro shuffle2 iteration st
    cases h : bestCandidate iteration st.current <;> simp [tabuStep, h]

/-- C4 (counterexample): with a cost-decreasing `shuffle` (`shuffle` has no cost
contract: it is an arbitrary feasible perturbation), at the end of a shuffle
iteration the walk position `current` can have *strictly smaller* cost than
`result`, refuting the claim that `result` is the minimum over every value
`current` has taken so far (and its parenthetical `cost(result) <= cost(current)`).
Run: identity cost on `ℤ`, `shuffle _ x = x - 1`, the neighborhood always
returns the non-improving `current` itself, `shuffle_after = 1`, two
iterations from initial solution `0`. -/
theorem C4_counterexample :
    (run (fun x : ℤ => x) (fun _ x => x - 1) (fun _ s => some s) 1 2 0
        ⟨0, 0, 0⟩).current
      < (run (fun x : ℤ => x) (fun _ x => x - 1) (fun _ s => some s) 1 2 0
        ⟨0, 0, 0⟩).result := by
  decide

/-- Witness for C4 (amended) at concrete inputs: identity cost on `ℤ`, an
always-improving neighborhood, three iterations from initial solution `10`,
plus the shuffle-independence of one iteration's `result` for two different
shuffles. -/
theorem C4_witness :
    (tabuSearch (fun x : ℤ => x) (fun _ x => x - 1) (fun _ s => some (s - 1))
        (fun x => x) 3 5 10
      = (updateValues (fun x : ℤ => x) (fun _ x => x - 1)
            (fun _ s => some (s - 1)) 5 3 0 ⟨10, 10, 0⟩).foldl
          (pyMin fun x : ℤ => x) 10)
    ∧ ((updateValues (fun x : ℤ => x) (fun _ x => x - 1)
            (fun _ s => some (s - 1)) 5 3 0 ⟨10, 10, 0⟩).foldl
          (pyMin fun x : ℤ => x) 10
        ∈ 10 :: updateValues (fun x : ℤ => x) (fun _ x => x - 1)
            (fun _ s => some (s - 1)) 5 3 0 ⟨10, 10, 0⟩)
    ∧ ((updateValues (fun x : ℤ => x) (fun _ x => x - 1)
            (fun _ s => some (s - 1)) 5 3 0 ⟨10, 10, 0⟩).foldl
          (pyMin fun x : ℤ => x) 10 ≤ 10)
    ∧ ((tabuStep (fun x : ℤ => x) (fun _ x => x - 1) (fun _ s => some (s - 1))
          5 0 ⟨5, 6, 0⟩).map DriverState.result
        = (tabuStep (fun x : ℤ => x) (fun _ x => x + 100)
            (fun _ s => some (s - 1)) 5 0 ⟨5, 6, 0⟩).map DriverState.result) :=
  have h := C4_driver_best_ever_amended (fun x : ℤ => x) (fun _ x => x - 1)
    (fun _ s => some (s - 1)) (fun x => x) 3 5 10
  ⟨h.1, h.2.1, h.2.2.1 10 (List.mem_cons_self _ _),
    h.2.2.2 (fun _ x => x + 100) 0 ⟨5, 6, 0⟩⟩

end SO

/-- C8: starvation is graceful, not exceptional.  (a) If the two segment lengths
exceed the tour dimension, the Swap enumeration is empty and
`find_best_candidate` returns the sentinel `None` pair (the embedding is a total
function — no exception); (b) when the scheduled neighborhood returns no
candidate, the driver loop stops at the current state; (c) consequently
`tabu_search` with a starving first neighborhood returns
`result.post_optimization()` of the best solution found so far (the initial
one). -/
theorem C8_starving_neighborhood_graceful :
    (∀ (n L1 L2 c : ℕ) (_ : NeZero n) (d : Fin n → Fin n → ℤ)
        (solution : TSP.PathSolution ℤ n) (path : Fin n → Fin n),
        n + 1 ≤ L1 + L2 →
          TSP.findBestCandidate n d solution path L1 L2 c = (none, none))
    ∧ (∀ (S : Type) (cost : S → ℤ) (shuffle : ℕ → S → S)
        (bc : ℕ → S → Option S) (sa fuel iteration : ℕ) (st : SO.DriverState S),
        bc iteration st.current = none →
          SO.run cost shuffle bc sa (fuel + 1) iteration st = st)
    ∧ (∀ (S : Type) (cost : S → ℤ) (shuffle : ℕ → S → S)
        (bc : ℕ → S → Option S) (post : S → S) (iters sa : ℕ) (init : S),
        bc 0 init = none →
          SO.tabuSearch cost shuffle bc post iters sa init = post init) := by
  refine ⟨?_, ?_, ?_⟩
  · intro n L1 L2 c hn d solution path h
    exact TSP.findBestCandidate_none_of_no_moves n L1 L2 c d solution path
      (TSP.enumerateSwaps_eq_nil n L1 L2 path h)
  · intro S cost shuffle bc sa fuel iteration st h
    simp [SO.run, SO.tabuStep, h]
  · intro S cost shuffle bc post iters sa init h
    cases iters with
    | zero => rfl
    | succ iters => simp [SO.tabuSearch, SO.run, SO.tabuStep, h]

/-- Witness for C8 at concrete inputs: a 2-city tour with segment lengths 2 and 2
(no feasible move), and a driver whose first neighborhood query starves. -/
theorem C8_witness :
    TSP.findBestCandidate 2 (fun _ _ => (0 : ℤ))
        ⟨fun v => v - 1, fun v => v + 1, 0⟩ (fun j => j) 2 2 3 = (none, none)
    ∧ SO.run (fun x : ℤ => x) (fun _ x => x) (fun _ _ => none) 5 (3 + 1) 0
        ⟨7, 7, 0⟩ = ⟨7, 7, 0⟩
    ∧ SO.tabuSearch (fun x : ℤ => x) (fun _ x => x) (fun _ _ => none)
        (fun x => x + 1) 10 5 7 = 8 :=
  ⟨C8_starving_neighborhood_graceful.1 2 2 2 3 ⟨by decide⟩ (fun _ _ => (0 : ℤ))
      ⟨fun v => v - 1, fun v => v + 1, 0⟩ (fun j => j) (by decide),
    C8_starving_neighborhood_graceful.2.1 ℤ (fun x => x) (fun _ x => x)
      (fun _ _ => none) 5 3 0 ⟨7, 7, 0⟩ rfl,
    C8_starving_neighborhood_graceful.2.2 ℤ (fun x => x) (fun _ x => x)
      (fun _ _ => none) (fun x => x + 1) 10 5 7 rfl⟩

namespace BaseSol

/-- `BaseSolution.__eq__` (src/tsp/abc.py lines 94-98) for two solutions of the
same concrete class: pure cost comparison of the encodings.  A solution of a
concrete class is modelled as an encoding `e : E` together with the class's pure
cost function `cost : E → R`. -/
def solEq {E R : Type} [DecidableEq R] (cost : E → R) (a b : E) : Bool :=
  cost a == cost b

/-- `BaseSolution.__lt__` (src/tsp/abc.py lines 100-104): strict cost
comparison. -/
def solLt {E R : Type} [LinearOrder R] (cost : E → R) (a b : E) : Bool :=
  decide (cost a < cost b)

/-- Python `set.add` under the class's `__eq__`: adding an element equal (by
cost) to a present member leaves the set unchanged. -/
def setAdd {E R : Type} [DecidableEq R] (cost : E → R) (xs : List E) (x : E) :
    List E :=
  if xs.any fun y => solEq cost y x then xs else xs ++ [x]

/-- C9: for solutions of one concrete class, `==` holds iff the costs are equal
and `<` holds iff the costs compare strictly; in particular two solutions with
different encodings but equal cost are equal, and adding such a duplicate to a
set leaves the set unchanged (cost-keyed set membership). -/
theorem C9_eq_lt_by_cost {E R : Type} [LinearOrder R] (cost : E → R) :
    (∀ a b : E, solEq cost a b = true ↔ cost a = cost b)
    ∧ (∀ a b : E, solLt cost a b = true ↔ cost a < cost b)
    ∧ (∀ a b : E, a ≠ b → cost a = cost b → solEq cost a b = true)
    ∧ (∀ (xs : List E) (a x : E), a ∈ xs → cost x = cost a →
        setAdd cost xs x = xs) := by
  refine ⟨fun a b => by simp [solEq], fun a b => by simp [solLt], ?_, ?_⟩
  · intro a b _ h
    simp [solEq, h]
  · intro xs a x ha h
    unfold setAdd
    rw [if_pos]
    rw [List.any_eq_true]
    exact ⟨a, ha, by simp [solEq, h]⟩

/-- Witness for C9: encodings are pairs, cost is the first component; `(1, 2)`
and `(1, 3)` are distinct encodings of equal cost. -/
theorem C9_witness :
    solEq (fun p : ℤ × ℤ => p.1) (1, 2) (1, 3) = true
    ∧ setAdd (fun p : ℤ × ℤ => p.1) [(1, 2)] (1, 3) = [(1, 2)] :=
  ⟨((C9_eq_lt_by_cost (fun p : ℤ × ℤ => p.1)).2.2.1 (1, 2) (1, 3) (by decide)
      (by decide)),
    ((C9_eq_lt_by_cost (fun p : ℤ × ℤ => p.1)).2.2.2 [(1, 2)] (1, 2) (1, 3)
      (by decide) (by decide))⟩

end BaseSol

namespace Tabu

/-- The two synchronized views of the tabu memory: the recency deque
`Swap._tabu_list` (oldest first) and the membership set `Swap._tabu_set`
(src/tsp/neighborhoods/swap.py lines 25-26). -/
@[ext]
structure TabuMemory (α : Type) [DecidableEq α] where
  tabu_list : List α
  tabu_set : Finset α

/-- Modelled from the spec: `add_to_tabu` — the method's body lives in
`src/tsp/neighborhoods/base.py`, which is not among the visible sources; the
spec states "insertion appends to the sequence and adds to the set; insertion
beyond the fixed capacity evicts the oldest entry from both views". -/
def addToTabu {α : Type} [DecidableEq α] (maxlen : ℕ) (mem : TabuMemory α)
    (x : α) : TabuMemory α :=
  let list := mem.tabu_list ++ [x]
  let set := insert x mem.tabu_set
  if maxlen < list.length then
    match list with
    | [] => { tabu_list := [], tabu_set := set }
    | old :: rest => { tabu_list := rest, tabu_set := set.erase old }
  else
    { tabu_list := list, tabu_set := set }

/-- `Swap._maxlen` (src/tsp/neighborhoods/swap.py line 24): the capacity, fixed
at the class level. -/
def Swap_maxlen : ℕ := 100

/-- The initial class-level state: empty deque, empty set. -/
def emptyMemory {α : Type} [DecidableEq α] : TabuMemory α :=
  { tabu_list := [], tabu_set := ∅ }

theorem tabu_fold_invariant {α : Type} [DecidableEq α] (maxlen : ℕ) :
    ∀ L : List α, L.Nodup →
      (L.foldl (addToTabu maxlen) emptyMemory).tabu_list
          = L.drop (L.length - maxlen)
        ∧ (L.foldl (addToTabu maxlen) emptyMemory).tabu_set
          = (L.drop (L.length - maxlen)).toFinset := by
  intro L
  induction L using List.reverseRecOn with
  | nil => intro _; constructor <;> simp [emptyMemory]
  | append_singleton L x ih =>
    intro hnd
    rw [List.nodup_append] at hnd
    obtain ⟨hndL, -, hdisj⟩ := hnd
    have hx : x ∉ L := fun hxL => hdisj hxL (List.mem_singleton_self x)
    obtain ⟨hlist, hset⟩ := ih hndL
    have hM : (L.foldl (addToTabu maxlen) emptyMemory)
        = ⟨L.drop (L.length - maxlen), (L.drop (L.length - maxlen)).toFinset⟩ := by
      ext1
      · exact hlist
      · rw [hset]
    rw [List.foldl_append]
    simp only [List.foldl_cons, List.foldl_nil]
    rw [hM]
    by_cases hcap : L.length < maxlen
    · have hd0 : L.length - maxlen = 0 := by omega
      rw [hd0]
      simp only [List.drop_zero]
      unfold addToTabu
      rw [if_neg (by simp; omega)]
      have hd1 : (L ++ [x]).length - maxlen = 0 := by simp; omega
      rw [hd1]
      simp only [List.drop_zero]
      refine ⟨by simp, ?_⟩
      ext y
      simp [or_comm]
    · have hmlen : maxlen ≤ L.length := le_of_not_lt hcap
      have hlendrop : (L.drop (L.length - maxlen)).length = maxlen := by
        rw [List.length_drop]; omega
      cases hdrop : L.drop (L.length - maxlen) with
      | nil =>
        have hm0 : maxlen = 0 := by rw [hdrop] at hlendrop; simpa using hlendrop.symm
        unfold addToTabu
        rw [if_pos (by simp; omega)]
        simp only [List.nil_append]
        have hd1 : (L ++ [x]).length - maxlen = L.length + 1 := by simp; omega
        rw [hd1]
        have hdnil : (L ++ [x]).drop (L.length + 1) = [] :=
          List.drop_eq_nil_of_le (by simp)
        rw [hdnil]
        refine ⟨rfl, ?_⟩
        simp
      | cons old rest =>
        have hm1 : 1 ≤ maxlen := by
          rw [hdrop] at hlendrop; simp at hlendrop; omega
        have hsub : (L.drop (L.length - maxlen)).Sublist L :=
          List.drop_sublist _ _
        have hnd2 : (old :: rest).Nodup := hdrop ▸ (hndL.sublist hsub)
        have ho : old ∉ rest := (List.nodup_cons.mp hnd2).1
        have holdL : old ∈ L := hsub.subset (by rw [hdrop]; exact List.mem_cons_self _ _)
        have hxo : x ≠ old := fun h => hx (h ▸ holdL)
        have hd1 : (L ++ [x]).length - maxlen = (L.length - maxlen) + 1 := by
          simp; omega
        have hstep : (L ++ [x]).drop ((L.length - maxlen) + 1) = rest ++ [x] := by
          rw [List.drop_append_of_le_length (by omega)]
          have h2 : L.drop (L.length - maxlen + 1) = (L.drop (L.length - maxlen)).drop 1 := by
            rw [List.drop_drop]
          rw [h2, hdrop]
          rfl
        have hml : maxlen = rest.length + 1 := by
          rw [hdrop] at hlendrop; simpa using hlendrop.symm
        unfold addToTabu
        rw [if_pos (by simp; omega)]
        simp only [List.cons_append]
        rw [hd1, hstep]
        refine ⟨rfl, ?_⟩
        ext y
        simp only [Finset.mem_erase, Finset.mem_insert, List.mem_toFinset,
          List.mem_cons, List.mem_append, List.mem_singleton, List.not_mem_nil,
          or_false]
        constructor
        · rintro ⟨hyne, hy | hy⟩
          · exact Or.inr hy
          · rcases hy with hy | hy
            · exact absurd hy hyne
            · exact Or.inl hy
        · rintro (hy | hy)
          · exact ⟨fun h => ho (h ▸ hy), Or.inr (Or.inr hy)⟩
          · exact ⟨hy ▸ hxo, Or.inl hy⟩

/-- C5: after inserting `N > _maxlen` pairwise-distinct descriptors into the
initially empty class-level tabu memory (capacity `Swap._maxlen = 100`), the
deque holds exactly the most recent 100 descriptors in insertion order, the
deque and the membership set hold the same elements (along every prefix of the
insertion sequence), and membership of every evicted older descriptor is
false. -/
theorem C5_tabu_memory_bound {α : Type} [DecidableEq α] (L : List α)
    (hL : L.Nodup) (hN : Swap_maxlen < L.length) :
    (L.foldl (addToTabu Swap_maxlen) emptyMemory).tabu_list
        = L.drop (L.length - Swap_maxlen)
    ∧ (L.foldl (addToTabu Swap_maxlen) emptyMemory).tabu_list.length = Swap_maxlen
    ∧ (∀ k : ℕ, ((L.take k).foldl (addToTabu Swap_maxlen) emptyMemory).tabu_set
        = ((L.take k).foldl (addToTabu Swap_maxlen) emptyMemory).tabu_list.toFinset)
    ∧ (∀ y ∈ L.take (L.length - Swap_maxlen),
        y ∉ (L.foldl (addToTabu Swap_maxlen) emptyMemory).tabu_set) := by
  obtain ⟨h1, h2⟩ := tabu_fold_invariant Swap_maxlen L hL
  refine ⟨h1, ?_, ?_, ?_⟩
  · rw [h1, List.length_drop]; omega
  · intro k
    obtain ⟨g1, g2⟩ := tabu_fold_invariant Swap_maxlen (L.take k)
      (hL.sublist (List.take_sublist _ _))
    rw [g1, g2]
  · intro y hy
    rw [h2, List.mem_toFinset]
    intro hy2
    have hsplit := List.take_append_drop (L.length - Swap_maxlen) L
    rw [← hsplit, List.nodup_append] at hL
    exact hL.2.2 hy hy2

theorem C5_witness :
    ((List.range 101).foldl (addToTabu Swap_maxlen) emptyMemory).tabu_list
        = (List.range 101).drop ((List.range 101).length - Swap_maxlen)
    ∧ ((List.range 101).foldl (addToTabu Swap_maxlen) emptyMemory).tabu_list.length
        = Swap_maxlen
    ∧ (∀ k : ℕ, (((List.range 101).take k).foldl (addToTabu Swap_maxlen)
          emptyMemory).tabu_set
        = (((List.range 101).take k).foldl (addToTabu Swap_maxlen)
            emptyMemory).tabu_list.toFinset)
    ∧ (∀ y ∈ (List.range 101).take ((List.range 101).length - Swap_maxlen),
        y ∉ ((List.range 101).foldl (addToTabu Swap_maxlen) emptyMemory).tabu_set) :=
  C5_tabu_memory_bound (List.range 101) (List.nodup_range 101) (by decide)

end Tabu

namespace MO

/-- Componentwise Pareto dominance of cost vectors (spec §3: `a` dominates `b`
iff `a ≤ b` in every objective and `a < b` in at least one). -/
def dominatesB {R : Type} [LinearOrder R] (a b : List R) : Bool :=
  (a.length == b.length)
    && (a.zip b).all (fun p => decide (p.1 ≤ p.2))
    && (a.zip b).any (fun p => decide (p.1 < p.2))

/-- Modelled from the spec: `add_to_pareto_set` (the method body lives in
`src/ts/abc/multi_ob/costs.py`, which is not among the visible sources).  Spec
§3: "Adding a candidate c: if any current member dominates c, c is rejected;
otherwise c is inserted and every current member dominated by c is removed."
Insertion is set-insertion keyed by cost-vector equality (§4.1).  Returns the
admission flag together with the updated front (Python mutates the `results`
set it receives). -/
def addToParetoSet {S R : Type} [LinearOrder R] (cost : S → List R)
    (candidate : S) (front : List S) : Bool × List S :=
  if front.any fun m => dominatesB (cost m) (cost candidate) then (false, front)
  else
    (true, BaseSol.setAdd cost
      (front.filter fun m => ! dominatesB (cost candidate) (cost m)) candidate)

/-- The loop state of `MultiObjectiveSolution.tabu_search`
(src/ts/abc/multi_ob/solutions.py lines 77-118): the Pareto archive `results`,
the working set `current` (both Python sets keyed by cost equality, modelled as
insertion-ordered duplicate-free lists), and the iteration index of the last
staging. -/
structure MOState (S : Type) where
  results : List S
  current : List S
  last_improved : ℕ

/-- The candidate-generation double loop of one iteration
(src/ts/abc/multi_ob/solutions.py lines 96-104): for every solution of
`current`, the chosen neighborhood's candidates (`candidatesOf iteration
solution` abstracts `random.choice(neighborhoods).find_best_candidates(...)`)
are Pareto-proposed to `results` (which is updated in place), and a candidate
is staged into `propagate` when it was admitted or when the
`propagation_predicate` (evaluated against the updated front, as in Python)
accepts it.  Returns the updated `results` and the staged list. -/
def moPropagate {S R : Type} [LinearOrder R] (cost : S → List R)
    (candidatesOf : ℕ → S → List S) (predicate : S → List S → Bool)
    (iteration : ℕ) (st : MOState S) : List S × List S :=
  st.current.foldl
    (fun acc solution =>
      (candidatesOf iteration solution).foldl
        (fun acc candidate =>
          let pr := addToParetoSet cost candidate acc.1
          if pr.1 || predicate candidate pr.2 then (pr.2, acc.2 ++ [candidate])
          else (pr.2, acc.2))
        acc)
    (st.results, [])

/-- `current` after staging (lines 106-108) and the `max_propagation` trim
(lines 110-115): staged candidates are set-added to `current`; then, when a
bound is configured (`max_propagation`, an `int` or a function of the front,
modelled uniformly as a function) and `current` exceeds it, the members chosen
by `random.sample` (oracle `sample`) are removed. -/
def moCurrentPreShuffle {S R : Type} [LinearOrder R] (cost : S → List R)
    (candidatesOf : ℕ → S → List S) (predicate : S → List S → Bool)
    (max_propagation : Option (List S → ℕ)) (sample : ℕ → List S → ℕ → List S)
    (iteration : ℕ) (st : MOState S) : List S :=
  let pr := moPropagate cost candidatesOf predicate iteration st
  let current1 := pr.2.foldl (BaseSol.setAdd cost) st.current
  match max_propagation with
  | none => current1
  | some f =>
    let remove_count := current1.length - f pr.1
    if 0 < remove_count then
      (sample iteration current1 remove_count).foldl
        (fun cur y => cur.filter fun z => ! BaseSol.solEq cost z y) current1
    else current1

/-- One full iteration of `MultiObjectiveSolution.tabu_search`
(src/ts/abc/multi_ob/solutions.py lines 96-118): stage candidates, add them to
`current` (resetting `last_improved` to the iteration whenever at least one
candidate was staged — the assignment inside the `for candidate in propagate`
loop), trim to `max_propagation`, then rebuild `current` from the shuffles of
its members once `iteration - last_improved >= shuffle_after`. -/
def moIteration {S R : Type} [LinearOrder R] (cost : S → List R)
    (candidatesOf : ℕ → S → List S) (predicate : S → List S → Bool)
    (max_propagation : Option (List S → ℕ)) (sample : ℕ → List S → ℕ → List S)
    (shuffle : ℕ → S → S) (shuffle_after iteration : ℕ) (st : MOState S) :
    MOState S :=
  let pr := moPropagate cost candidatesOf predicate iteration st
  let last1 := match pr.2 with
    | [] => st.last_improved
    | _ :: _ => iteration
  let current2 := moCurrentPreShuffle cost candidatesOf predicate
    max_propagation sample iteration st
  let current3 := if shuffle_after ≤ iteration - last1 then
      ((current2.map (shuffle iteration)).foldl (BaseSol.setAdd cost) [])
    else current2
  ⟨pr.1, current3, last1⟩

/-- `MultiObjectiveSolution.tabu_search` (src/ts/abc/multi_ob/solutions.py
lines 33-142): `results = {initial}`, `current = results.copy()`, then —
before any iteration and *regardless of `plot_pareto_front`* — the arity
check `if len(initial.cost()) != 2: raise ValueError(...)`; then the iteration
loop; finally the set of `post_optimization()` images of `results`.  (The
progress bar, the `candidate_costs` plotting accumulator and the matplotlib
rendering have no effect on the returned value and are not modelled.) -/
def moTabuSearch {S R : Type} [LinearOrder R] (cost : S → List R) (init : S)
    (candidatesOf : ℕ → S → List S) (predicate : S → List S → Bool)
    (max_propagation : Option (List S → ℕ)) (sample : ℕ → List S → ℕ → List S)
    (shuffle : ℕ → S → S) (post : S → S) (iterations_count shuffle_after : ℕ)
    (plot_pareto_front : Bool) : Except String (List S) :=
  let initial := init
  let results := [initial]
  let current := results
  if (cost initial).length ≠ 2 then
    Except.error "Cannot plot the Pareto front when the number of objectives is not 2"
  else
    let final := (List.range iterations_count).foldl
      (fun st iteration => moIteration cost candidatesOf predicate
        max_propagation sample shuffle shuffle_after iteration st)
      ⟨results, current, 0⟩
    Except.ok ((final.results.map post).foldl (BaseSol.setAdd cost) [])

/-- C3: the arity check of `MultiObjectiveSolution.tabu_search` fires even when
`plot_pareto_front` is `False` — a 3-objective problem is rejected with the
plotting error message although no plotting was requested, while a 2-objective
problem proceeds normally. -/
theorem C3_arity_check_fires_without_plotting :
    moTabuSearch (S := Unit) (R := ℤ) (fun _ => [0, 0, 0]) () (fun _ _ => [])
        (fun _ _ => true) none (fun _ _ _ => []) (fun _ s => s) (fun s => s) 0 5
        false
      = Except.error "Cannot plot the Pareto front when the number of objectives is not 2"
    ∧ moTabuSearch (S := Unit) (R := ℤ) (fun _ => [0, 0]) () (fun _ _ => [])
        (fun _ _ => true) none (fun _ _ _ => []) (fun _ s => s) (fun s => s) 0 5
        false
      = Except.ok [()] :=
  ⟨rfl, rfl⟩

theorem mem_foldl_setAdd {E R : Type} [DecidableEq R] (cost : E → R) :
    ∀ (l acc : List E) (x : E),
      x ∈ l.foldl (BaseSol.setAdd cost) acc → x ∈ acc ∨ x ∈ l := by
  intro l
  induction l with
  | nil => intro acc x hx; exact Or.inl hx
  | cons y l ih =>
    intro acc x hx
    rcases ih (BaseSol.setAdd cost acc y) x hx with h | h
    · unfold BaseSol.setAdd at h
      split at h
      · exact Or.inl h
      · rcases List.mem_append.mp h with h2 | h2
        · exact Or.inl h2
        · exact Or.inr (List.mem_cons.mpr (Or.inl (List.mem_singleton.mp h2)))
    · exact Or.inr (List.mem_cons_of_mem y h)

/-- C7 (amended): the stagnation origin `last_improved` is reset to the current
iteration if and only if at least one candidate was *staged* this iteration
(`propagate` nonempty) — regardless of whether `current` actually grew (a
staged candidate cost-equal to a present member leaves `current` unchanged but
still resets the counter; see the counterexample).  Once
`iteration - last_improved >= shuffle_after`, every member of the resulting
working set is the `shuffle()` of a member of the pre-shuffle working set;
below the threshold the working set is left as staged-and-trimmed. -/
theorem C7_stagnation_reset_amended {S R : Type} [LinearOrder R]
    (cost : S → List R) (candidatesOf : ℕ → S → List S)
    (predicate : S → List S → Bool) (max_propagation : Option (List S → ℕ))
    (sample : ℕ → List S → ℕ → List S) (shuffle : ℕ → S → S)
    (shuffle_after iteration : ℕ) (st : MOState S) :
    ((moPropagate cost candidatesOf predicate iteration st).2 ≠ [] →
      (moIteration cost candidatesOf predicate max_propagation sample shuffle
        shuffle_after iteration st).last_improved = iteration)
    ∧ ((moPropagate cost candidatesOf predicate iteration st).2 = [] →
      (moIteration cost candidatesOf predicate max_propagation sample shuffle
        shuffle_after iteration st).last_improved = st.last_improved)
    ∧ (shuffle_after ≤ iteration - (moIteration cost candidatesOf predicate
          max_propagation sample shuffle shuffle_after iteration st).last_improved →
        ∀ x ∈ (moIteration cost candidatesOf predicate max_propagation sample
            shuffle shuffle_after iteration st).current,
          ∃ s ∈ moCurrentPreShuffle cost candidatesOf predicate max_propagation
              sample iteration st, x = shuffle iteration s)
    ∧ (iteration - (moIteration cost candidatesOf predicate max_propagation
          sample shuffle shuffle_after iteration st).last_improved < shuffle_after →
        (moIteration cost candidatesOf predicate max_propagation sample shuffle
            shuffle_after iteration st).current
          = moCurrentPreShuffle cost candidatesOf predicate max_propagation
              sample iteration st) := by
  have hlast : (moIteration cost candidatesOf predicate max_propagation sample
      shuffle shuffle_after iteration st).last_improved
      = match (moPropagate cost candidatesOf predicate iteration st).2 with
        | [] => st.last_improved
        | _ :: _ => iteration := rfl
  have hcur : (moIteration cost candidatesOf predicate max_propagation sample
      shuffle shuffle_after iteration st).current
      = if shuffle_after ≤ iteration - (moIteration cost candidatesOf predicate
            max_propagation sample shuffle shuffle_after iteration st).last_improved
        then ((moCurrentPreShuffle cost candidatesOf predicate max_propagation
            sample iteration st).map (shuffle iteration)).foldl
          (BaseSol.setAdd cost) []
        else moCurrentPreShuffle cost candidatesOf predicate max_propagation
          sample iteration st := rfl
  refine ⟨?_, ?_, ?_, ?_⟩
  · intro h
    rw [hlast]
    cases hp : (moPropagate cost candidatesOf predicate iteration st).2 with
    | nil => exact absurd hp h
    | cons a l => rfl
  · intro h
    rw [hlast]
    cases hp : (moPropagate cost candidatesOf predicate iteration st).2 with
    | nil => rfl
    | cons a l => rw [hp] at h; cases h
  · intro h x hx
    rw [hcur, if_pos h] at hx
    rcases mem_foldl_setAdd cost _ [] x hx with h2 | h2
    · cases h2
    · obtain ⟨s, hs, heq⟩ := List.mem_map.mp h2
      exact ⟨s, hs, heq.symm⟩
  · intro h
    rw [hcur, if_neg (not_le.mpr h)]

/-- C7 (counterexample): with the source's default `_accept_all` propagation
predicate, a staged candidate whose cost vector equals that of a present member
of `current` resets `last_improved` to the iteration index although `current`
does not grow (Python set add of an equal element is a no-op) — refuting
"reset if and only if `current` grew".  Solutions are identifiers `0, 1 : ℕ`
with the constant cost vector `[0, 0]`. -/
theorem C7_counterexample :
    (moIteration (fun _ : ℕ => ([0, 0] : List ℤ)) (fun _ _ => [1])
        (fun _ _ => true) none (fun _ _ _ => []) (fun _ s => s) 100 5
        ⟨[0], [0], 0⟩).last_improved = 5
    ∧ (moIteration (fun _ : ℕ => ([0, 0] : List ℤ)) (fun _ _ => [1])
        (fun _ _ => true) none (fun _ _ _ => []) (fun _ s => s) 100 5
        ⟨[0], [0], 0⟩).current = [0]
    ∧ (5 : ℕ) ≠ 0 := by
  refine ⟨by decide, by decide, by decide⟩

theorem C7_amended_witness :
    (moIteration (fun _ : ℕ => ([0, 0] : List ℤ)) (fun _ _ => [1])
        (fun _ _ => true) none (fun _ _ _ => []) (fun _ s => s) 100 5
        ⟨[0], [0], 0⟩).last_improved = 5 :=
  (C7_stagnation_reset_amended (fun _ : ℕ => ([0, 0] : List ℤ)) (fun _ _ => [1])
    (fun _ _ => true) none (fun _ _ _ => []) (fun _ s => s) 100 5
    ⟨[0], [0], 0⟩).1 (by decide)

end MO

namespace D2D

/-- `DroneEnergyConsumptionMode` (src/ts/d2d/config.py, outside the visible
sources; only the `LINEAR` branch selection matters here). -/
inductive EnergyMode where
  | linear
  | nonlinear
deriving DecidableEq

/-- The class-level problem state of `D2DPathSolution` written by
`import_problem` (src/ts/d2d/solutions.py lines 42-53 and 380-408).  Numeric
values are exact rationals. -/
structure ProblemState where
  problem : Option String
  customers_count : ℕ
  drones_count : ℕ
  technicians_count : ℕ
  drones_flight_duration : ℚ
  x : List ℚ
  y : List ℚ
  demands : List ℚ
  dronable : List Bool
  technician_service_time : List ℚ
  drone_service_time : List ℚ
  energy_mode : EnergyMode
deriving DecidableEq

/-- `ImportException.__init__` (src/ts/d2d/errors.py lines 15-18): the message
`f"Unable to import problem {problem!r}"` (`!r` wraps the identifier in
quotes). -/
def importExceptionMessage (problem : String) : String :=
  "Unable to import problem " ++ "\x27" ++ problem ++ "\x27"

def natOfDigits (cs : List Char) : ℕ :=
  cs.foldl (fun acc c => acc * 10 + (c.toNat - 48)) 0

/-- `re.search(key + r"(\d+)", data)`: the first position where the literal
`key` is immediately followed by at least one digit; returns the value of the
maximal digit run there. -/
def searchNatAux (key : List Char) : List Char → Option ℕ
  | [] => none
  | c :: rest =>
    if key.isPrefixOf (c :: rest) then
      let ds := ((c :: rest).drop key.length).takeWhile Char.isDigit
      if ds.isEmpty then searchNatAux key rest else some (natOfDigits ds)
    else searchNatAux key rest

def searchNat (key : String) (data : String) : Option ℕ :=
  searchNatAux key.data data.data

/-- Python `float()` on the strings matched by the row pattern's numeric
groups: optional minus sign, digits with at most one decimal point, at least
one digit; returns the exact rational value, `none` where `float()` raises
`ValueError` (e.g. on `"-"` or `"1.2.3"`, which `[-\d\.]+` can match). -/
def parseDecimal (s : String) : Option ℚ :=
  let neg := s.startsWith "-"
  let body := if neg then s.drop 1 else s
  let signed : ℚ → ℚ := fun q => if neg then -q else q
  match body.split (· = '.') with
  | [ip] =>
    if ip.data.all Char.isDigit ∧ ¬ ip.data.isEmpty then
      some (signed (natOfDigits ip.data))
    else none
  | [ip, fp] =>
    if ip.data.all Char.isDigit ∧ fp.data.all Char.isDigit
        ∧ ¬ (ip.data.isEmpty ∧ fp.data.isEmpty) then
      some (signed ((natOfDigits ip.data : ℚ)
        + (natOfDigits fp.data : ℚ) / (10 : ℚ) ^ fp.data.length))
    else none
  | _ => none

def isDecimalToken (allowNeg : Bool) (s : String) : Bool :=
  !s.isEmpty && s.data.all fun c => c.isDigit || c = '.' || (allowNeg && c = '-')

/-- One customer row of the problem file.  Models one match of
`([-\d\.]+)\s+([-\d\.]+)\s+([\d\.]+)\s+(0|1)\t([\d\.]+)\s+([\d\.]+)` in
`re.finditer` (src/ts/d2d/solutions.py line 392), simplified to a
whitespace-tokenized line of six fields of the corresponding character
classes. -/
def parseRowLine (line : String) :
    Option (String × String × String × String × String × String) :=
  match (line.split fun c => c = ' ' ∨ c = '\t').filter (fun t => ¬ t.isEmpty) with
  | [a, b, c, d, e, f] =>
    if isDecimalToken true a && isDecimalToken true b && isDecimalToken false c
        && (d == "0" || d == "1") && isDecimalToken false e
        && isDecimalToken false f then
      some (a, b, c, d, e, f)
    else none
  | _ => none

/-- The row-conversion loop (src/ts/d2d/solutions.py lines 386-399): the local
lists start with the depot sentinels `[0.0] … [True] …` and each row appends
its six converted fields; a failing `float()` conversion aborts (and is caught
by the surrounding `except`). -/
def buildRows
    (rows : List (String × String × String × String × String × String)) :
    Option (List ℚ × List ℚ × List ℚ × List Bool × List ℚ × List ℚ) :=
  rows.foldl
    (fun acc r =>
      match acc with
      | none => none
      | some (xs, ys, ds, dr, tst, dst) =>
        match parseDecimal r.1, parseDecimal r.2.1, parseDecimal r.2.2.1,
            parseDecimal r.2.2.2.2.1, parseDecimal r.2.2.2.2.2 with
        | some xv, some yv, some dem, some ts, some dro =>
          some (xs ++ [xv], ys ++ [yv], ds ++ [dem], dr ++ [r.2.2.2.1 == "0"],
            tst ++ [ts], dst ++ [dro])
        | _, _, _, _, _ => none)
    (some ([0], [0], [0], [true], [0], [0]))

/-- `D2DPathSolution.import_problem` (src/ts/d2d/solutions.py lines 369-411),
restricted to the `try` block (`import_config` concerns the separate global
configuration state and is treated as already imported).  `file` is the content
of `problems/d2d/random_data/{problem}.txt`, `none` when the file is missing
(`open` raises).  Each class-variable assignment is applied to the state in
source order; any failure is caught and converted to an `ImportException`
naming the problem, but the assignments already performed are *not* rolled
back.  Returns the error (if any) together with the resulting class state.
(`technicians_count` really parses the `number_drone` pattern again, as in the
source.)  The six list-valued fields are assigned from fully built local lists
(lines 401-406), so they change only together. -/
def importProblem (st : ProblemState) (problem : String) (file : Option String)
    (energy_mode : EnergyMode) : Option String × ProblemState :=
  match file with
  | none => (some (importExceptionMessage problem), st)
  | some data =>
    let st := { st with problem := some problem }
    match searchNat "Customers " data with
    | none => (some (importExceptionMessage problem), st)
    | some v =>
      let st := { st with customers_count := v }
      match searchNat "number_drone " data with
      | none => (some (importExceptionMessage problem), st)
      | some v =>
        let st := { st with drones_count := v }
        match searchNat "number_drone " data with
        | none => (some (importExceptionMessage problem), st)
        | some v =>
          let st := { st with technicians_count := v }
          match searchNat "droneLimitationFightTime(s) " data with
          | none => (some (importExceptionMessage problem), st)
          | some v =>
            let st := { st with drones_flight_duration := (v : ℚ) }
            match buildRows ((data.splitOn "\n").filterMap parseRowLine) with
            | none => (some (importExceptionMessage problem), st)
            | some (xs, ys, ds, dr, tst, dst) =>
              let st := { st with
                x := xs, y := ys, demands := ds, dronable := dr,
                technician_service_time := tst, drone_service_time := dst,
                energy_mode := energy_mode }
              (none, st)

/-- A fresh class state: nothing imported yet. -/
def st0 : ProblemState :=
  { problem := none, customers_count := 0, drones_count := 0,
    technicians_count := 0, drones_flight_duration := 0, x := [], y := [],
    demands := [], dronable := [], technician_service_time := [],
    drone_service_time := [], energy_mode := EnergyMode.linear }

/-- C6 (counterexample): on a problem file that contains a `Customers` header
but no `number_drone` header, `import_problem` raises the `ImportException`
naming the problem — but the class state is *not* left as it was: `problem`
and `customers_count` have already been overwritten (partial initialization). -/
theorem C6_counterexample :
    (importProblem st0 "p42" (some "Customers 5") EnergyMode.linear).1
        = some (importExceptionMessage "p42")
    ∧ (importProblem st0 "p42" (some "Customers 5") EnergyMode.linear).2 ≠ st0
    ∧ (importProblem st0 "p42" (some "Customers 5")
        EnergyMode.linear).2.customers_count = 5
    ∧ (importProblem st0 "p42" (some "Customers 5")
        EnergyMode.linear).2.problem = some "p42" := by
  refine ⟨by decide, by decide, by decide, by decide⟩

/-- C6 (amended): every failing run of `import_problem` raises an
`ImportException` whose message names the offending problem identifier, and a
failure at file open (missing problem file) leaves the class state exactly as
it was; a failure *after* the file was read, however, may leave the state
partially initialized (see the counterexample). -/
theorem C6_import_error_amended :
    (∀ (st : ProblemState) (problem : String) (file : Option String)
        (em : EnergyMode),
      (importProblem st problem file em).1 = none
        ∨ (importProblem st problem file em).1
            = some (importExceptionMessage problem))
    ∧ (∀ (st : ProblemState) (problem : String) (em : EnergyMode),
      importProblem st problem none em
        = (some (importExceptionMessage problem), st)) := by
  constructor
  · intro st problem file em
    cases file with
    | none => exact Or.inr rfl
    | some data =>
      unfold importProblem
      repeat' split
      all_goals first | exact Or.inl rfl | exact Or.inr rfl
  · intro st problem em
    rfl

/-- Witness for C6 (amended) at concrete inputs: a missing file and a malformed
file both produce the message naming the problem; the missing file leaves the
state untouched. -/
theorem C6_amended_witness :
    ((importProblem st0 "abc" (some "garbage") EnergyMode.linear).1 = none
      ∨ (importProblem st0 "abc" (some "garbage") EnergyMode.linear).1
          = some (importExceptionMessage "abc"))
    ∧ importProblem st0 "abc" none EnergyMode.linear
        = (some (importExceptionMessage "abc"), st0) :=
  ⟨C6_import_error_amended.1 st0 "abc" (some "garbage") EnergyMode.linear,
    C6_import_error_amended.2 st0 "abc" EnergyMode.linear⟩

/-- Phase 1 of `D2DPathSolution.initial` (src/ts/d2d/solutions.py lines
299-307): the `while len(technician_only) > 0` loop.  `k % paths.length` is
`next(technician_iter)` (the round-robin `itertools.cycle`); `pickT k remaining`
abstracts `min(technician_only, key=partial(cls.distance, path[-1]))` (the
nearest remaining technician-only customer — the float `sqrt` metric and the
set-iteration tie-break are abstracted into the choice oracle).  `fuel` bounds
the iterations by the initial cardinality; an empty cycle
(`technicians_count = 0` with work left) is Python's `StopIteration`, modelled
as `none`. -/
def techLoop (pickT : ℕ → Finset ℕ → ℕ) :
    ℕ → ℕ → List (List ℕ) → Finset ℕ → Option (List (List ℕ))
  | 0, _, paths, remaining =>
    if remaining.card = 0 then some paths else none
  | fuel + 1, k, paths, remaining =>
    if remaining.card = 0 then some paths
    else if paths.length = 0 then none
    else
      let idx := k % paths.length
      let index := pickT k remaining
      techLoop pickT fuel (k + 1) (paths.set idx (paths.getD idx [] ++ [index]))
        (remaining.erase index)

/-- Phase 2 of `D2DPathSolution.initial` (src/ts/d2d/solutions.py lines
312-352): the `while len(dronable) > 0` loop.  `k % dps.length` is
`next(drone_iter)`; `pickD k remaining` abstracts the nearest remaining
dronable customer; `accept k` abstracts the weight/flight-time/battery
feasibility test of lines 339 (the float bookkeeping of lines 313-337 has no
influence on the structural claims and is absorbed into the oracle);
`pickPath k tps.length` abstracts `min(technician_paths,
key=lambda path: cls.distance(index, path[-2]))`.  On rejection the drone's
current sortie is closed with the depot, a fresh sortie is opened, and the
customer is inserted into the chosen technician path just before its final
depot (`insert(-1, index)`). -/
def droneLoop (pickD : ℕ → Finset ℕ → ℕ) (accept : ℕ → Bool)
    (pickPath : ℕ → ℕ → ℕ) :
    ℕ → ℕ → List (List (List ℕ)) → List (List ℕ) → Finset ℕ →
    Option (List (List (List ℕ)) × List (List ℕ))
  | 0, _, dps, tps, remaining =>
    if remaining.card = 0 then some (dps, tps) else none
  | fuel + 1, k, dps, tps, remaining =>
    if remaining.card = 0 then some (dps, tps)
    else if dps.length = 0 then none
    else
      let drone := k % dps.length
      let paths := dps.getD drone []
      let index := pickD k remaining
      if accept k then
        let paths2 := paths.dropLast ++ [paths.getLastD [] ++ [index]]
        droneLoop pickD accept pickPath fuel (k + 1) (dps.set drone paths2) tps
          (remaining.erase index)
      else
        let paths2 := paths.dropLast ++ [paths.getLastD [] ++ [0]] ++ [[0]]
        if tps.length = 0 then none
        else
          let tidx := pickPath k tps.length
          let tpath := tps.getD tidx []
          let tpath2 := match tpath.getLast? with
            | none => [index]
            | some lastv => tpath.dropLast ++ [index, lastv]
          droneLoop pickD accept pickPath fuel (k + 1) (dps.set drone paths2)
            (tps.set tidx tpath2) (remaining.erase index)

/-- `D2DPathSolution.initial` (src/ts/d2d/solutions.py lines 297-360):
technician phase over the technician-only customers, closing every technician
path with the depot; drone phase over the dronable customers; close every
drone's final sortie with the depot; keep only technician paths with more than
two stops. -/
def d2dInitial (C T D : ℕ) (dronable : ℕ → Bool) (pickT pickD : ℕ → Finset ℕ → ℕ)
    (accept : ℕ → Bool) (pickPath : ℕ → ℕ → ℕ) :
    Option (List (List (List ℕ)) × List (List ℕ)) :=
  let technician_only := (Finset.Icc 1 C).filter fun e => ¬ dronable e
  match techLoop pickT technician_only.card 0 (List.replicate T [0])
      technician_only with
  | none => none
  | some tpaths1 =>
    let tpaths2 := tpaths1.map (· ++ [0])
    let dset := (Finset.Icc 1 C).filter fun e => dronable e
    match droneLoop pickD accept pickPath dset.card 0 (List.replicate D [[0]])
        tpaths2 dset with
    | none => none
    | some (dps, tps) =>
      let dps2 := dps.map fun paths => paths.dropLast ++ [paths.getLastD [] ++ [0]]
      some (dps2, tps.filter fun path => 2 < path.length)

/-- Total number of occurrences of customer `c` across a list of paths. -/
def countPaths (tps : List (List ℕ)) (c : ℕ) : ℕ :=
  (tps.map (List.count c)).sum

/-- Total number of occurrences of customer `c` across all drones' sorties. -/
def countDrone (dps : List (List (List ℕ))) (c : ℕ) : ℕ :=
  (dps.map fun dpl => countPaths dpl c).sum

theorem getD_mem_of_lt {α : Type} (d : α) :
    ∀ (l : List α) (i : ℕ), i < l.length → l.getD i d ∈ l := by
  intro l
  induction l with
  | nil => intro i h; cases h
  | cons a l ih =>
    intro i h
    cases i with
    | zero => exact List.mem_cons_self _ _
    | succ i => exact List.mem_cons_of_mem a (ih i (by simpa using h))

theorem countPaths_cons (p : List ℕ) (tps : List (List ℕ)) (c : ℕ) :
    countPaths (p :: tps) c = List.count c p + countPaths tps c := by
  simp [countPaths]

theorem countPaths_set :
    ∀ (tps : List (List ℕ)) (i : ℕ) (p : List ℕ) (c : ℕ), i < tps.length →
      countPaths (tps.set i p) c + List.count c (tps.getD i [])
        = countPaths tps c + List.count c p := by
  intro tps
  induction tps with
  | nil => intro i p c h; cases h
  | cons q tps ih =>
    intro i p c h
    cases i with
    | zero =>
      simp only [List.set, List.getD, List.get?_cons_zero, Option.getD_some]
      rw [countPaths_cons, countPaths_cons]
      omega
    | succ i =>
      simp only [List.set, List.getD_cons_succ]
      rw [countPaths_cons, countPaths_cons]
      have := ih i p c (by simpa using h)
      omega

theorem countDrone_cons (dpl : List (List ℕ)) (dps : List (List (List ℕ)))
    (c : ℕ) : countDrone (dpl :: dps) c = countPaths dpl c + countDrone dps c := by
  simp [countDrone]

theorem countDrone_set :
    ∀ (dps : List (List (List ℕ))) (i : ℕ) (dpl : List (List ℕ)) (c : ℕ),
      i < dps.length →
      countDrone (dps.set i dpl) c + countPaths (dps.getD i []) c
        = countDrone dps c + countPaths dpl c := by
  intro dps
  induction dps with
  | nil => intro i dpl c h; cases h
  | cons q dps ih =>
    intro i dpl c h
    cases i with
    | zero =>
      simp only [List.set, List.getD, List.get?_cons_zero, Option.getD_some]
      rw [countDrone_cons, countDrone_cons]
      omega
    | succ i =>
      simp only [List.set, List.getD_cons_succ]
      rw [countDrone_cons, countDrone_cons]
      have := ih i dpl c (by simpa using h)
      omega

theorem head?_append_left {α : Type} (p q : List α) (a : α)
    (h : p.head? = some a) : (p ++ q).head? = some a := by
  cases p with
  | nil => cases h
  | cons b p => simpa using h

theorem dropLast_append_getLastD {α : Type} :
    ∀ (l : List α) (d : α), l ≠ [] → l.dropLast ++ [l.getLastD d] = l := by
  intro l
  induction l with
  | nil => intro d h; exact absurd rfl h
  | cons a l ih =>
    intro d _
    cases l with
    | nil => rfl
    | cons b t =>
      have h2 := ih a (by simp)
      rw [List.getLastD_cons] at h2
      simp only [List.dropLast_cons₂, List.getLastD_cons, List.cons_append]
      rw [h2]

theorem countPaths_replicate_depot (T c : ℕ) (hc : c ≠ 0) :
    countPaths (List.replicate T [0]) c = 0 := by
  induction T with
  | zero => rfl
  | succ T ih =>
    rw [List.replicate_succ, countPaths_cons, ih]
    have h0 : List.count c [0] = 0 := by
      rw [List.count_eq_zero]
      simp [hc]
    rw [h0]

theorem countPaths_append (A B : List (List ℕ)) (c : ℕ) :
    countPaths (A ++ B) c = countPaths A c + countPaths B c := by
  simp [countPaths]

theorem getLastD_mem {α : Type} (l : List α) (d : α) (h : l ≠ []) :
    l.getLastD d ∈ l := by
  have h2 := dropLast_append_getLastD l d h
  have h3 : l.getLastD d ∈ l.dropLast ++ [l.getLastD d] :=
    List.mem_append_right l.dropLast (List.mem_singleton_self _)
  rwa [h2] at h3

theorem head?_dropLast_of_two_le {α : Type} (l : List α) (h : 2 ≤ l.length) :
    l.dropLast.head? = l.head? := by
  cases l with
  | nil => simp at h
  | cons a q =>
    cases q with
    | nil => simp at h
    | cons b t =>
      rw [List.dropLast_cons₂]
      rfl

theorem count_pair_len2 (p : List ℕ) (h : p.length = 2) (hh : p.head? = some 0)
    (hl : p.getLast? = some 0) (c : ℕ) (hc : c ≠ 0) : List.count c p = 0 := by
  cases p with
  | nil => simp at h
  | cons a q =>
    cases q with
    | nil => simp at h
    | cons b r =>
      cases r with
      | nil =>
        have ha : a = 0 := by simpa using hh
        have hb : b = 0 := by
          have h2 : ([a] ++ [b]).getLast? = some b := List.getLast?_concat _
          simp only [List.singleton_append] at h2
          rw [h2] at hl
          simpa using hl
        rw [List.count_eq_zero]
        simp [ha, hb, hc]
      | cons x t =>
        simp only [List.length_cons] at h
        omega

theorem countPaths_filter_sum :
    ∀ (tps : List (List ℕ)) (c : ℕ),
      (∀ p ∈ tps, ¬ 2 < p.length → List.count c p = 0) →
      countPaths (tps.filter fun p => decide (2 < p.length)) c
        = countPaths tps c := by
  intro tps
  induction tps with
  | nil => intro c _; rfl
  | cons q tps ih =>
    intro c h
    rw [List.filter_cons]
    by_cases hq : 2 < q.length
    · rw [if_pos (by simpa using hq), countPaths_cons, countPaths_cons,
        ih c fun p hp hlen => h p (List.mem_cons_of_mem q hp) hlen]
    · rw [if_neg (by simpa using hq), countPaths_cons,
        ih c fun p hp hlen => h p (List.mem_cons_of_mem q hp) hlen,
        h q (List.mem_cons_self q tps) hq, Nat.zero_add]

theorem countDrone_replicate_depot (D c : ℕ) (hc : c ≠ 0) :
    countDrone (List.replicate D [[0]]) c = 0 := by
  induction D with
  | zero => rfl
  | succ D ih =>
    rw [List.replicate_succ, countDrone_cons, ih]
    rw [countPaths_cons]
    have h0 : List.count c [0] = 0 := by
      rw [List.count_eq_zero]
      simp [hc]
    rw [h0]
    rfl

theorem techLoop_spec (pickT : ℕ → Finset ℕ → ℕ)
    (hpick : ∀ k r, r.Nonempty → pickT k r ∈ r) :
    ∀ (fuel k : ℕ) (paths : List (List ℕ)) (remaining : Finset ℕ)
      (res : List (List ℕ)),
      techLoop pickT fuel k paths remaining = some res →
      (∀ p ∈ paths, p.head? = some 0) →
      (∀ p ∈ res, p.head? = some 0)
      ∧ res.length = paths.length
      ∧ ∀ c : ℕ, countPaths res c
          = countPaths paths c + (if c ∈ remaining then 1 else 0) := by
  intro fuel
  induction fuel with
  | zero =>
    intro k paths remaining res hrun hheads
    rw [techLoop] at hrun
    by_cases hcard : remaining.card = 0
    · rw [if_pos hcard] at hrun
      have hres : paths = res := by simpa using hrun
      subst hres
      have hempty : remaining = ∅ := Finset.card_eq_zero.mp hcard
      exact ⟨hheads, rfl, fun c => by simp [hempty]⟩
    · rw [if_neg hcard] at hrun
      exact absurd hrun (by simp)
  | succ fuel ih =>
    intro k paths remaining res hrun hheads
    rw [techLoop] at hrun
    by_cases hcard : remaining.card = 0
    · rw [if_pos hcard] at hrun
      have hres : paths = res := by simpa using hrun
      subst hres
      have hempty : remaining = ∅ := Finset.card_eq_zero.mp hcard
      exact ⟨hheads, rfl, fun c => by simp [hempty]⟩
    · rw [if_neg hcard] at hrun
      by_cases hlen : paths.length = 0
      · rw [if_pos hlen] at hrun
        exact absurd hrun (by simp)
      · rw [if_neg hlen] at hrun
        have hnonempty : remaining.Nonempty := by
          rw [Finset.nonempty_iff_ne_empty]
          intro he
          exact hcard (by simp [he])
        have hmem : pickT k remaining ∈ remaining := hpick k remaining hnonempty
        have hidx : k % paths.length < paths.length :=
          Nat.mod_lt k (Nat.pos_of_ne_zero hlen)
        have hrun' : techLoop pickT fuel (k + 1)
            (paths.set (k % paths.length)
              (paths.getD (k % paths.length) [] ++ [pickT k remaining]))
            (remaining.erase (pickT k remaining)) = some res := hrun
        have hheads2 : ∀ p ∈ paths.set (k % paths.length)
            (paths.getD (k % paths.length) [] ++ [pickT k remaining]),
            p.head? = some 0 := by
          intro p hp
          rcases List.mem_or_eq_of_mem_set hp with hpm | hpe
          · exact hheads p hpm
          · rw [hpe]
            exact head?_append_left _ _ _
              (hheads _ (getD_mem_of_lt [] paths _ hidx))
        have hstep := ih (k + 1) _ _ res hrun' hheads2
        refine ⟨hstep.1, ?_, ?_⟩
        · rw [hstep.2.1, List.length_set]
        · intro c
          have h1 := hstep.2.2 c
          have hcs := countPaths_set paths (k % paths.length)
            (paths.getD (k % paths.length) [] ++ [pickT k remaining]) c hidx
          rw [List.count_append] at hcs
          by_cases hc : c = pickT k remaining
          · have hiE : (if c ∈ remaining.erase (pickT k remaining) then 1 else 0)
                = 0 := if_neg (by simp [Finset.mem_erase, hc])
            have hiR : (if c ∈ remaining then 1 else 0) = 1 :=
              if_pos (by rw [hc]; exact hmem)
            have hcount : List.count c [pickT k remaining] = 1 := by
              rw [hc]
              simp
            rw [hiE] at h1
            rw [hcount] at hcs
            rw [hiR]
            omega
          · have hiE : (if c ∈ remaining.erase (pickT k remaining) then 1 else 0)
                = (if c ∈ remaining then 1 else 0) := by
              by_cases hm : c ∈ remaining
              · rw [if_pos hm, if_pos (Finset.mem_erase.mpr ⟨hc, hm⟩)]
              · rw [if_neg hm, if_neg fun hx => hm (Finset.mem_erase.mp hx).2]
            have hcount : List.count c [pickT k remaining] = 0 := by
              rw [List.count_eq_zero]
              simp [hc]
            rw [hiE] at h1
            rw [hcount] at hcs
            omega

theorem countPaths_singleton (p : List ℕ) (c : ℕ) :
    countPaths [p] c = List.count c p := by
  rw [countPaths_cons]
  rfl

theorem droneLoop_spec (pickD : ℕ → Finset ℕ → ℕ) (accept : ℕ → Bool)
    (pickPath : ℕ → ℕ → ℕ)
    (hpick : ∀ k r, r.Nonempty → pickD k r ∈ r)
    (hpp : ∀ k l, 0 < l → pickPath k l < l) :
    ∀ (fuel k : ℕ) (dps : List (List (List ℕ))) (tps : List (List ℕ))
      (remaining : Finset ℕ) (res : List (List (List ℕ)) × List (List ℕ)),
      droneLoop pickD accept pickPath fuel k dps tps remaining = some res →
      (∀ dpl ∈ dps, dpl ≠ [] ∧ (∀ p ∈ dpl, p.head? = some 0)
        ∧ ∀ p ∈ dpl.dropLast, p.getLast? = some 0) →
      (∀ p ∈ tps, p.head? = some 0 ∧ p.getLast? = some 0 ∧ 2 ≤ p.length) →
      (∀ dpl ∈ res.1, dpl ≠ [] ∧ (∀ p ∈ dpl, p.head? = some 0)
        ∧ ∀ p ∈ dpl.dropLast, p.getLast? = some 0)
      ∧ (∀ p ∈ res.2, p.head? = some 0 ∧ p.getLast? = some 0 ∧ 2 ≤ p.length)
      ∧ (∀ c : ℕ, c ≠ 0 →
          countDrone res.1 c + countPaths res.2 c
            = countDrone dps c + countPaths tps c
              + (if c ∈ remaining then 1 else 0))
      ∧ ∀ c : ℕ, c ≠ 0 → c ∉ remaining →
          countDrone res.1 c = countDrone dps c := by
  intro fuel
  induction fuel with
  | zero =>
    intro k dps tps remaining res hrun hdps htps
    rw [droneLoop] at hrun
    by_cases hcard : remaining.card = 0
    · rw [if_pos hcard] at hrun
      have hres : (dps, tps) = res := by simpa using hrun
      subst hres
      have hempty : remaining = ∅ := Finset.card_eq_zero.mp hcard
      exact ⟨hdps, htps, fun c _ => by simp [hempty], fun c _ _ => rfl⟩
    · rw [if_neg hcard] at hrun
      exact absurd hrun (by simp)
  | succ fuel ih =>
    intro k dps tps remaining res hrun hdps htps
    rw [droneLoop] at hrun
    by_cases hcard : remaining.card = 0
    · rw [if_pos hcard] at hrun
      have hres : (dps, tps) = res := by simpa using hrun
      subst hres
      have hempty : remaining = ∅ := Finset.card_eq_zero.mp hcard
      exact ⟨hdps, htps, fun c _ => by simp [hempty], fun c _ _ => rfl⟩
    · rw [if_neg hcard] at hrun
      by_cases hlen : dps.length = 0
      · rw [if_pos hlen] at hrun
        exact absurd hrun (by simp)
      · rw [if_neg hlen] at hrun
        have hnonempty : remaining.Nonempty := by
          rw [Finset.nonempty_iff_ne_empty]
          intro he
          exact hcard (by simp [he])
        have hmem : pickD k remaining ∈ remaining := hpick k remaining hnonempty
        have hdr : k % dps.length < dps.length :=
          Nat.mod_lt k (Nat.pos_of_ne_zero hlen)
        have hplmem : dps.getD (k % dps.length) [] ∈ dps :=
          getD_mem_of_lt [] dps _ hdr
        obtain ⟨hplne, hplheads, hpllasts⟩ := hdps _ hplmem
        by_cases haccept : accept k = true
        · rw [haccept] at hrun
          have hrun' : droneLoop pickD accept pickPath fuel (k + 1)
              (dps.set (k % dps.length)
                ((dps.getD (k % dps.length) []).dropLast
                  ++ [(dps.getD (k % dps.length) []).getLastD []
                      ++ [pickD k remaining]]))
              tps (remaining.erase (pickD k remaining)) = some res := hrun
          have hds2 : ∀ dpl ∈ dps.set (k % dps.length)
              ((dps.getD (k % dps.length) []).dropLast
                ++ [(dps.getD (k % dps.length) []).getLastD []
                    ++ [pickD k remaining]]),
              dpl ≠ [] ∧ (∀ p ∈ dpl, p.head? = some 0)
                ∧ ∀ p ∈ dpl.dropLast, p.getLast? = some 0 := by
            intro dpl hdpl
            rcases List.mem_or_eq_of_mem_set hdpl with hm | he
            · exact hdps dpl hm
            · rw [he]
              refine ⟨by simp, ?_, ?_⟩
              · intro p hp
                rcases List.mem_append.mp hp with hp1 | hp2
                · exact hplheads p ((List.dropLast_sublist _).subset hp1)
                · rw [List.mem_singleton.mp hp2]
                  exact head?_append_left _ _ _
                    (hplheads _ (getLastD_mem _ [] hplne))
              · rw [List.dropLast_concat]
                exact hpllasts
          have hstep := ih (k + 1) _ _ _ res hrun' hds2 htps
          have hpres : ∀ c : ℕ, c ≠ 0 → c ∉ remaining →
              countDrone res.1 c = countDrone dps c := by
            intro c hc hnm
            have h4 := hstep.2.2.2 c hc
              fun hx => hnm (Finset.mem_erase.mp hx).2
            have hset := countDrone_set dps (k % dps.length)
              ((dps.getD (k % dps.length) []).dropLast
                ++ [(dps.getD (k % dps.length) []).getLastD []
                    ++ [pickD k remaining]]) c hdr
            have hF2 : countPaths
                ((dps.getD (k % dps.length) []).dropLast
                  ++ [(dps.getD (k % dps.length) []).getLastD []
                      ++ [pickD k remaining]]) c
                = countPaths (dps.getD (k % dps.length) []).dropLast c
                  + (List.count c ((dps.getD (k % dps.length) []).getLastD [])
                    + List.count c [pickD k remaining]) := by
              rw [countPaths_append, countPaths_singleton, List.count_append]
            have hF3 := countPaths_append
              (dps.getD (k % dps.length) []).dropLast
              [(dps.getD (k % dps.length) []).getLastD []] c
            rw [dropLast_append_getLastD (dps.getD (k % dps.length) []) [] hplne,
              countPaths_singleton] at hF3
            have hc2 : c ≠ pickD k remaining := by
              intro he
              exact hnm (by rw [he]; exact hmem)
            have hcount : List.count c [pickD k remaining] = 0 := by
              rw [List.count_eq_zero]
              simp [hc2]
            rw [hcount] at hF2
            omega
          refine ⟨hstep.1, hstep.2.1, ?_, hpres⟩
          intro c hc
          have h1 := hstep.2.2.1 c hc
          have hset := countDrone_set dps (k % dps.length)
            ((dps.getD (k % dps.length) []).dropLast
              ++ [(dps.getD (k % dps.length) []).getLastD []
                  ++ [pickD k remaining]]) c hdr
          have hF2 : countPaths
              ((dps.getD (k % dps.length) []).dropLast
                ++ [(dps.getD (k % dps.length) []).getLastD []
                    ++ [pickD k remaining]]) c
              = countPaths (dps.getD (k % dps.length) []).dropLast c
                + (List.count c ((dps.getD (k % dps.length) []).getLastD [])
                  + List.count c [pickD k remaining]) := by
            rw [countPaths_append, countPaths_singleton, List.count_append]
          have hF3 := countPaths_append
            (dps.getD (k % dps.length) []).dropLast
            [(dps.getD (k % dps.length) []).getLastD []] c
          rw [dropLast_append_getLastD (dps.getD (k % dps.length) []) [] hplne,
            countPaths_singleton] at hF3
          by_cases hc2 : c = pickD k remaining
          · have hiE : (if c ∈ remaining.erase (pickD k remaining) then 1 else 0)
                = 0 := if_neg (by simp [Finset.mem_erase, hc2])
            have hiR : (if c ∈ remaining then 1 else 0) = 1 :=
              if_pos (by rw [hc2]; exact hmem)
            have hcount : List.count c [pickD k remaining] = 1 := by
              rw [hc2]
              simp
            rw [hiE] at h1
            rw [hcount] at hF2
            rw [hiR]
            omega
          · have hiE : (if c ∈ remaining.erase (pickD k remaining) then 1 else 0)
                = (if c ∈ remaining then 1 else 0) := by
              by_cases hm : c ∈ remaining
              · rw [if_pos hm, if_pos (Finset.mem_erase.mpr ⟨hc2, hm⟩)]
              · rw [if_neg hm, if_neg fun hx => hm (Finset.mem_erase.mp hx).2]
            have hcount : List.count c [pickD k remaining] = 0 := by
              rw [List.count_eq_zero]
              simp [hc2]
            rw [hiE] at h1
            rw [hcount] at hF2
            omega
        · have haccept' : accept k = false := by simpa using haccept
          rw [haccept'] at hrun
          have hrun2 : (if tps.length = 0 then none else
              droneLoop pickD accept pickPath fuel (k + 1)
                (dps.set (k % dps.length)
                  ((dps.getD (k % dps.length) []).dropLast
                    ++ [(dps.getD (k % dps.length) []).getLastD [] ++ [0]]
                    ++ [[0]]))
                (tps.set (pickPath k tps.length)
                  (match (tps.getD (pickPath k tps.length) []).getLast? with
                    | none => [pickD k remaining]
                    | some lastv =>
                      (tps.getD (pickPath k tps.length) []).dropLast
                        ++ [pickD k remaining, lastv]))
                (remaining.erase (pickD k remaining))) = some res := hrun
          by_cases htlen : tps.length = 0
          · rw [if_pos htlen] at hrun2
            exact absurd hrun2 (by simp)
          · rw [if_neg htlen] at hrun2
            have htidx : pickPath k tps.length < tps.length :=
              hpp k tps.length (Nat.pos_of_ne_zero htlen)
            have htpmem : tps.getD (pickPath k tps.length) [] ∈ tps :=
              getD_mem_of_lt [] tps _ htidx
            obtain ⟨hth, htl, htlen2⟩ := htps _ htpmem
            rw [htl] at hrun2
            have hrun' : droneLoop pickD accept pickPath fuel (k + 1)
                (dps.set (k % dps.length)
                  ((dps.getD (k % dps.length) []).dropLast
                    ++ [(dps.getD (k % dps.length) []).getLastD [] ++ [0]]
                    ++ [[0]]))
                (tps.set (pickPath k tps.length)
                  ((tps.getD (pickPath k tps.length) []).dropLast
                    ++ [pickD k remaining, 0]))
                (remaining.erase (pickD k remaining)) = some res := hrun2
            have hds2 : ∀ dpl ∈ dps.set (k % dps.length)
                ((dps.getD (k % dps.length) []).dropLast
                  ++ [(dps.getD (k % dps.length) []).getLastD [] ++ [0]]
                  ++ [[0]]),
                dpl ≠ [] ∧ (∀ p ∈ dpl, p.head? = some 0)
                  ∧ ∀ p ∈ dpl.dropLast, p.getLast? = some 0 := by
              intro dpl hdpl
              rcases List.mem_or_eq_of_mem_set hdpl with hm | he
              · exact hdps dpl hm
              · rw [he]
                refine ⟨by simp, ?_, ?_⟩
                · intro p hp
                  rcases List.mem_append.mp hp with hp1 | hp2
                  · rcases List.mem_append.mp hp1 with hp3 | hp4
                    · exact hplheads p ((List.dropLast_sublist _).subset hp3)
                    · rw [List.mem_singleton.mp hp4]
                      exact head?_append_left _ _ _
                        (hplheads _ (getLastD_mem _ [] hplne))
                  · rw [List.mem_singleton.mp hp2]
                    rfl
                · rw [List.dropLast_concat]
                  intro p hp
                  rcases List.mem_append.mp hp with hp1 | hp2
                  · exact hpllasts p hp1
                  · rw [List.mem_singleton.mp hp2]
                    exact List.getLast?_concat _
            have htps2 : ∀ p ∈ tps.set (pickPath k tps.length)
                ((tps.getD (pickPath k tps.length) []).dropLast
                  ++ [pickD k remaining, 0]),
                p.head? = some 0 ∧ p.getLast? = some 0 ∧ 2 ≤ p.length := by
              intro p hp
              rcases List.mem_or_eq_of_mem_set hp with hm | he
              · exact htps p hm
              · rw [he]
                refine ⟨?_, ?_, ?_⟩
                · have hd : (tps.getD (pickPath k tps.length) []).dropLast.head?
                      = some 0 := by
                    rw [head?_dropLast_of_two_le _ htlen2]
                    exact hth
                  exact head?_append_left _ _ _ hd
                · have hassoc : (tps.getD (pickPath k tps.length) []).dropLast
                      ++ [pickD k remaining, 0]
                      = ((tps.getD (pickPath k tps.length) []).dropLast
                        ++ [pickD k remaining]) ++ [0] := by simp
                  rw [hassoc, List.getLast?_concat]
                · rw [List.length_append]
                  simp only [List.length_cons, List.length_nil]
                  omega
            have hstep := ih (k + 1) _ _ _ res hrun' hds2 htps2
            have hpres : ∀ c : ℕ, c ≠ 0 → c ∉ remaining →
                countDrone res.1 c = countDrone dps c := by
              intro c hc hnm
              have h4 := hstep.2.2.2 c hc
                fun hx => hnm (Finset.mem_erase.mp hx).2
              have hc0 : List.count c [0] = 0 := by
                rw [List.count_eq_zero]
                simp [hc]
              have hset := countDrone_set dps (k % dps.length)
                ((dps.getD (k % dps.length) []).dropLast
                  ++ [(dps.getD (k % dps.length) []).getLastD [] ++ [0]]
                  ++ [[0]]) c hdr
              have hF2 : countPaths
                  ((dps.getD (k % dps.length) []).dropLast
                    ++ [(dps.getD (k % dps.length) []).getLastD [] ++ [0]]
                    ++ [[0]]) c
                  = countPaths (dps.getD (k % dps.length) []).dropLast c
                    + (List.count c ((dps.getD (k % dps.length) []).getLastD [])
                      + List.count c [0]) + List.count c [0] := by
                rw [countPaths_append, countPaths_append, countPaths_singleton,
                  countPaths_singleton, List.count_append]
              have hF3 := countPaths_append
                (dps.getD (k % dps.length) []).dropLast
                [(dps.getD (k % dps.length) []).getLastD []] c
              rw [dropLast_append_getLastD (dps.getD (k % dps.length) []) []
                hplne, countPaths_singleton] at hF3
              omega
            refine ⟨hstep.1, hstep.2.1, ?_, hpres⟩
            intro c hc
            have h1 := hstep.2.2.1 c hc
            have hc0 : List.count c [0] = 0 := by
              rw [List.count_eq_zero]
              simp [hc]
            have hset := countDrone_set dps (k % dps.length)
              ((dps.getD (k % dps.length) []).dropLast
                ++ [(dps.getD (k % dps.length) []).getLastD [] ++ [0]]
                ++ [[0]]) c hdr
            have hF2 : countPaths
                ((dps.getD (k % dps.length) []).dropLast
                  ++ [(dps.getD (k % dps.length) []).getLastD [] ++ [0]]
                  ++ [[0]]) c
                = countPaths (dps.getD (k % dps.length) []).dropLast c
                  + (List.count c ((dps.getD (k % dps.length) []).getLastD [])
                    + List.count c [0]) + List.count c [0] := by
              rw [countPaths_append, countPaths_append, countPaths_singleton,
                countPaths_singleton, List.count_append]
            have hF3 := countPaths_append
              (dps.getD (k % dps.length) []).dropLast
              [(dps.getD (k % dps.length) []).getLastD []] c
            rw [dropLast_append_getLastD (dps.getD (k % dps.length) []) [] hplne,
              countPaths_singleton] at hF3
            have htpne : tps.getD (pickPath k tps.length) [] ≠ [] := by
              intro h0
              rw [h0] at htlen2
              simp at htlen2
            have h5 := dropLast_append_getLastD
              (tps.getD (pickPath k tps.length) []) 0 htpne
            rw [List.getLastD_eq_getLast?, htl, Option.getD_some] at h5
            have hF5 := List.count_append c
              (tps.getD (pickPath k tps.length) []).dropLast [0]
            rw [h5] at hF5
            have hF6 := List.count_append c
              (tps.getD (pickPath k tps.length) []).dropLast
              [pickD k remaining, 0]
            have hF6b : List.count c [pickD k remaining, 0]
                = List.count c [pickD k remaining] + List.count c [0] :=
              List.count_append c [pickD k remaining] [0]
            have hF7 := countPaths_set tps (pickPath k tps.length)
              ((tps.getD (pickPath k tps.length) []).dropLast
                ++ [pickD k remaining, 0]) c htidx
            by_cases hc2 : c = pickD k remaining
            · have hiE : (if c ∈ remaining.erase (pickD k remaining) then 1 else 0)
                  = 0 := if_neg (by simp [Finset.mem_erase, hc2])
              have hiR : (if c ∈ remaining then 1 else 0) = 1 :=
                if_pos (by rw [hc2]; exact hmem)
              have hcount : List.count c [pickD k remaining] = 1 := by
                rw [hc2]
                simp
              rw [hiE] at h1
              rw [hcount] at hF6b
              rw [hiR]
              omega
            · have hiE : (if c ∈ remaining.erase (pickD k remaining) then 1 else 0)
                  = (if c ∈ remaining then 1 else 0) := by
                by_cases hm : c ∈ remaining
                · rw [if_pos hm, if_pos (Finset.mem_erase.mpr ⟨hc2, hm⟩)]
                · rw [if_neg hm, if_neg fun hx => hm (Finset.mem_erase.mp hx).2]
              have hcount : List.count c [pickD k remaining] = 0 := by
                rw [List.count_eq_zero]
                simp [hc2]
              rw [hiE] at h1
              rw [hcount] at hF6b
              omega

theorem countPaths_map_append0 (c : ℕ) (hc : c ≠ 0) :
    ∀ tps : List (List ℕ),
      countPaths (tps.map (· ++ [0])) c = countPaths tps c := by
  intro tps
  induction tps with
  | nil => rfl
  | cons q tps ih =>
    rw [List.map_cons, countPaths_cons, countPaths_cons, ih, List.count_append]
    have hc0 : List.count c [0] = 0 := by
      rw [List.count_eq_zero]
      simp [hc]
    rw [hc0]
    omega

theorem countDrone_closeAll (c : ℕ) (hc : c ≠ 0) :
    ∀ dps : List (List (List ℕ)), (∀ dpl ∈ dps, dpl ≠ []) →
      countDrone (dps.map fun paths =>
        paths.dropLast ++ [paths.getLastD [] ++ [0]]) c = countDrone dps c := by
  intro dps
  induction dps with
  | nil => intro _; rfl
  | cons q dps ih =>
    intro h
    rw [List.map_cons, countDrone_cons, countDrone_cons,
      ih fun dpl hd => h dpl (List.mem_cons_of_mem q hd)]
    have hqne := h q (List.mem_cons_self q dps)
    have h2 : countPaths (q.dropLast ++ [q.getLastD [] ++ [0]]) c
        = countPaths q.dropLast c
          + (List.count c (q.getLastD []) + List.count c [0]) := by
      rw [countPaths_append, countPaths_singleton, List.count_append]
    have h3 := countPaths_append q.dropLast [q.getLastD []] c
    rw [dropLast_append_getLastD q [] hqne, countPaths_singleton] at h3
    have hc0 : List.count c [0] = 0 := by
      rw [List.count_eq_zero]
      simp [hc]
    rw [h2, h3, hc0]
    omega

/-- C10: `D2DPathSolution.initial()` — with the nearest-customer choices, the
weight/flight-time/battery feasibility test and the technician-path choice
abstracted into oracles (`pickT`/`pickD` pick a member of the remaining set,
`pickPath` picks a valid technician index, `accept` is arbitrary) — returns,
whenever it succeeds, a solution in which every customer `1..customers_count`
appears exactly once across all drone sorties and retained technician paths
together, no technician-only customer appears in a drone sortie, every drone
sortie begins and ends at the depot `0`, and every retained technician path
begins and ends at the depot `0`. -/
theorem C10_initial_structure
    (C T D : ℕ) (dronable : ℕ → Bool) (pickT pickD : ℕ → Finset ℕ → ℕ)
    (accept : ℕ → Bool) (pickPath : ℕ → ℕ → ℕ)
    (dps : List (List (List ℕ))) (tps : List (List ℕ))
    (hpickT : ∀ k r, r.Nonempty → pickT k r ∈ r)
    (hpickD : ∀ k r, r.Nonempty → pickD k r ∈ r)
    (hpickPath : ∀ k l, 0 < l → pickPath k l < l)
    (hrun : d2dInitial C T D dronable pickT pickD accept pickPath
      = some (dps, tps)) :
    (∀ c ∈ Finset.Icc 1 C, countDrone dps c + countPaths tps c = 1)
    ∧ (∀ c ∈ Finset.Icc 1 C, dronable c = false → countDrone dps c = 0)
    ∧ (∀ dpl ∈ dps, ∀ p ∈ dpl, p.head? = some 0 ∧ p.getLast? = some 0)
    ∧ (∀ p ∈ tps, p.head? = some 0 ∧ p.getLast? = some 0) := by
  rw [d2dInitial] at hrun
  cases htech : techLoop pickT
      ((Finset.Icc 1 C).filter fun e => ¬ dronable e).card 0
      (List.replicate T [0])
      ((Finset.Icc 1 C).filter fun e => ¬ dronable e) with
  | none =>
    rw [htech] at hrun
    exact absurd hrun (by simp)
  | some tpaths1 =>
    rw [htech] at hrun
    have htspec := techLoop_spec pickT hpickT _ 0 _ _ tpaths1 htech ?hheads0
    case hheads0 =>
      intro p hp
      rw [List.eq_of_mem_replicate hp]
      rfl
    have hrunB : (match droneLoop pickD accept pickPath
        ((Finset.Icc 1 C).filter fun e => dronable e).card 0
        (List.replicate D [[0]]) (tpaths1.map (· ++ [0]))
        ((Finset.Icc 1 C).filter fun e => dronable e) with
      | none => none
      | some (dpsR, tpsR) =>
        some (dpsR.map fun paths =>
            paths.dropLast ++ [paths.getLastD [] ++ [0]],
          tpsR.filter fun path => 2 < path.length))
        = some (dps, tps) := hrun
    cases hdrone : droneLoop pickD accept pickPath
        ((Finset.Icc 1 C).filter fun e => dronable e).card 0
        (List.replicate D [[0]]) (tpaths1.map (· ++ [0]))
        ((Finset.Icc 1 C).filter fun e => dronable e) with
    | none =>
      rw [hdrone] at hrunB
      exact absurd hrunB (by simp)
    | some pr =>
      obtain ⟨dpsR, tpsR⟩ := pr
      rw [hdrone] at hrunB
      have hpair := Option.some.inj hrunB
      have hdpseq : (dpsR.map fun paths =>
          paths.dropLast ++ [paths.getLastD [] ++ [0]]) = dps :=
        congrArg Prod.fst hpair
      have htpseq : tpsR.filter (fun path => decide (2 < path.length)) = tps :=
        congrArg Prod.snd hpair
      have hdinit : ∀ dpl ∈ List.replicate D [[0]],
          dpl ≠ [] ∧ (∀ p ∈ dpl, p.head? = some 0)
            ∧ ∀ p ∈ dpl.dropLast, p.getLast? = some 0 := by
        intro dpl hd
        rw [List.eq_of_mem_replicate hd]
        refine ⟨by simp, ?_, ?_⟩
        · intro p hp
          rw [List.mem_singleton.mp hp]
          rfl
        · intro p hp
          simp at hp
      have htinit : ∀ p ∈ tpaths1.map (· ++ [0]),
          p.head? = some 0 ∧ p.getLast? = some 0 ∧ 2 ≤ p.length := by
        intro p hp
        obtain ⟨q, hq, hq2⟩ := List.mem_map.mp hp
        have hqh := htspec.1 q hq
        have hqne : q ≠ [] := by
          intro h0
          rw [h0] at hqh
          simp at hqh
        refine ⟨?_, ?_, ?_⟩
        · rw [← hq2]
          exact head?_append_left _ _ _ hqh
        · rw [← hq2]
          exact List.getLast?_concat _
        · rw [← hq2, List.length_append]
          have := List.length_pos.mpr hqne
          simp only [List.length_cons, List.length_nil]
          omega
      have hdspec := droneLoop_spec pickD accept pickPath hpickD hpickPath
        _ 0 _ _ _ (dpsR, tpsR) hdrone hdinit htinit
      refine ⟨?_, ?_, ?_, ?_⟩
      · intro c hcI
        obtain ⟨hc1, hc2⟩ := Finset.mem_Icc.mp hcI
        have hc : c ≠ 0 := by omega
        have hcons := hdspec.2.2.1 c hc
        have htech_count := htspec.2.2 c
        rw [countPaths_replicate_depot T c hc] at htech_count
        have hmap := countPaths_map_append0 c hc tpaths1
        rw [htech_count] at hmap
        have hclose : countDrone dps c = countDrone dpsR c := by
          rw [← hdpseq]
          exact countDrone_closeAll c hc dpsR fun dpl hd => (hdspec.1 dpl hd).1
        have hfilter : countPaths tps c = countPaths tpsR c := by
          rw [← htpseq]
          exact countPaths_filter_sum tpsR c fun p hp hlen => by
            have hinv := hdspec.2.1 p hp
            exact count_pair_len2 p (by omega) hinv.1 hinv.2.1 c hc
        rw [hclose, hfilter, hcons, hmap]
        have hsplit : (if c ∈ (Finset.Icc 1 C).filter
              (fun e => ¬ dronable e = true) then 1 else 0)
            + (if c ∈ (Finset.Icc 1 C).filter
              (fun e => dronable e = true) then 1 else 0) = 1 := by
          by_cases hd : dronable c = true
          · rw [if_neg (by simp [Finset.mem_filter, hd]),
              if_pos (Finset.mem_filter.mpr ⟨hcI, hd⟩)]
          · rw [if_pos (Finset.mem_filter.mpr ⟨hcI, hd⟩),
              if_neg (by simp [Finset.mem_filter]; intro _ _; simpa using hd)]
        rw [countDrone_replicate_depot D c hc]
        omega
      · intro c hcI hnd
        obtain ⟨hc1, hc2⟩ := Finset.mem_Icc.mp hcI
        have hc : c ≠ 0 := by omega
        have hnm : c ∉ (Finset.Icc 1 C).filter fun e => dronable e := by
          simp [Finset.mem_filter, hnd]
        have hkeep := hdspec.2.2.2 c hc hnm
        rw [countDrone_replicate_depot D c hc] at hkeep
        rw [← hdpseq,
          countDrone_closeAll c hc dpsR fun dpl hd => (hdspec.1 dpl hd).1]
        exact hkeep
      · intro dpl hdpl p hp
        rw [← hdpseq] at hdpl
        obtain ⟨q, hq, hq2⟩ := List.mem_map.mp hdpl
        obtain ⟨hqne, hqheads, hqlasts⟩ := hdspec.1 q hq
        rw [← hq2] at hp
        rcases List.mem_append.mp hp with hp1 | hp2
        · exact ⟨hqheads p ((List.dropLast_sublist _).subset hp1),
            hqlasts p hp1⟩
        · rw [List.mem_singleton.mp hp2]
          exact ⟨head?_append_left _ _ _
              (hqheads _ (getLastD_mem _ [] hqne)),
            List.getLast?_concat _⟩
      · intro p hp
        rw [← htpseq] at hp
        have hinv := hdspec.2.1 p (List.mem_filter.mp hp).1
        exact ⟨hinv.1, hinv.2.1⟩

/-- Witness for C10 at a concrete instance: three customers, customer 1
technician-only, customers 2 and 3 dronable, one technician, one drone, an
always-accepting feasibility oracle and nearest = minimum: the produced
solution is `([[[0, 2, 3, 0]]], [[0, 1, 0]])` and satisfies every structural
conclusion. -/
theorem C10_witness :
    (∀ c ∈ Finset.Icc 1 3,
      countDrone [[[0, 2, 3, 0]]] c + countPaths [[0, 1, 0]] c = 1)
    ∧ (∀ c ∈ Finset.Icc 1 3, (fun c => decide (c = 2 ∨ c = 3)) c = false →
        countDrone [[[0, 2, 3, 0]]] c = 0)
    ∧ (∀ dpl ∈ [[[0, 2, 3, 0]]], ∀ p ∈ dpl,
        p.head? = some 0 ∧ p.getLast? = some 0)
    ∧ (∀ p ∈ [[0, 1, 0]], p.head? = some 0 ∧ p.getLast? = some 0) :=
  C10_initial_structure 3 1 1 (fun c => decide (c = 2 ∨ c = 3))
    (fun _ r => if h : r.Nonempty then r.min' h else 0)
    (fun _ r => if h : r.Nonempty then r.min' h else 0)
    (fun _ => true) (fun _ _ => 0)
    [[[0, 2, 3, 0]]] [[0, 1, 0]]
    (fun _ r hne => by
      show (if h : r.Nonempty then r.min' h else 0) ∈ r
      rw [dif_pos hne]
      exact r.min'_mem hne)
    (fun _ r hne => by
      show (if h : r.Nonempty then r.min' h else 0) ∈ r
      rw [dif_pos hne]
      exact r.min'_mem hne)
    (fun _ _ hl => hl)
    (by decide)

end D2D
